import Mathlib

/-!
# BTHomeV2-Arduino: the `BaseDevice` measurement buffer and advertisement assembler

A shallow embedding of `src/BaseDevice.cpp` / `src/BaseDevice.h`.

* Bytes (`uint8_t`), `uint32_t` and `size_t` values are natural numbers; every place where
  the C++ code narrows a value is written with an explicit `% 2 ^ w`.
* The object state is the record `BaseDevice`; every member function takes the state and
  returns its result together with the new state.
* Three collaborators live outside the repository and are parameters of the model:
  the byte macros of `definitions.h` (`Definitions`), `std::sort` (`StdSort`, any function
  meeting the contract of `std::sort`), and `mbedtls_ccm_encrypt_and_tag` (`Ccm`).
* `addInteger` / `addFloat` receive the 64-bit value that the scaling expression hands to
  `pushBytes`; the scaling expression of `addInteger` is `scaledValue`, over the rationals
  with the rounding of `double` (`addUnsignedIntegerValue`, `addSignedIntegerValue`). The
  `float` arithmetic of `addFloat` is not modelled.
-/

namespace BTHome

/-! ## Constants of `BaseDevice.h` -/

/-- The constant `MAX_ADVERTISEMENT_SIZE` of `BaseDevice.h`. -/
def MAX_ADVERTISEMENT_SIZE : Nat := 31

/-- The constant `HEADER_SIZE` of `BaseDevice.h`. -/
def HEADER_SIZE : Nat := 9

/-- The constant `MAX_MEASUREMENT_SIZE` of `BaseDevice.h`. -/
def MAX_MEASUREMENT_SIZE : Nat := MAX_ADVERTISEMENT_SIZE - HEADER_SIZE

/-- The constant `TYPE_INDICATOR_SIZE` of `BaseDevice.h`. -/
def TYPE_INDICATOR_SIZE : Nat := 1

/-- Modelled from the spec: the macro `ENCRYPTION_ADDITIONAL_BYTES` of `definitions.h`, which
is not part of the sources at hand; the spec gives the fixed encryption overhead as a 4-byte
counter plus a 4-byte authentication tag. -/
def ENCRYPTION_ADDITIONAL_BYTES : Nat := 8

/-- Modelled from the spec: the macro `MIC_LEN` of `definitions.h` (4-byte authentication
tag; the same macro is the number of counter bytes copied into the nonce). -/
def MIC_LEN : Nat := 4

/-- Modelled from the spec: the macro `NONCE_LEN` of `definitions.h` (13-byte nonce). -/
def NONCE_LEN : Nat := 13

/-- Modelled from the spec: the macro `MAX_LENGTH_SHORT_NAME` of `definitions.h` (the short
name holds at most 12 bytes). -/
def MAX_LENGTH_SHORT_NAME : Nat := 12

/-- The byte-valued macros of `definitions.h` that the assembler writes into the frame, and
the bound of the complete-name buffer. The header is not part of the sources at hand, so the
values are parameters of the model. Each of the eleven byte macros is stored into a
`uint8_t` cell, so it is a value below 256. -/
structure Definitions where
  FLAG1 : Nat
  FLAG2 : Nat
  FLAG3 : Nat
  SERVICE_DATA : Nat
  UUID1 : Nat
  UUID2 : Nat
  FLAG_VERSION : Nat
  FLAG_TRIGGER : Nat
  FLAG_ENCRYPT : Nat
  COMPLETE_NAME : Nat
  SHORT_NAME : Nat
  MAX_LENGTH_COMPLETE_NAME : Nat
deriving Repr, DecidableEq

/-- The descriptor `BtHomeState` / `BtHomeType` of `data_types.h` as far as `BaseDevice.cpp`
reads it: the sensor id and the declared byte width. (The `scale` member of `BtHomeType`
only enters the scaling expression; the descriptor with its scale is `BtHomeType`.) -/
structure BtHomeState where
  id : Nat
  byteCount : Nat
deriving Repr, DecidableEq

/-- The state of a `BaseDevice` object, with the members `BaseDevice.cpp` reads and writes.
`_sensorData` is the vector of entries (each a vector of bytes) that the member functions
`push_back` to, `clear` and sort; `_sensorDataIdx` is the `uint8_t` consumed-byte counter;
`_counter` is the `uint32_t` message counter. Names are the bytes before the terminating
NUL. -/
structure BaseDevice where
  _shortName : List Nat
  _completeName : List Nat
  _triggerDevice : Bool
  _useEncryption : Bool
  _counter : Nat
  bindKey : List Nat
  _macAddress : List Nat
  _sensorDataIdx : Nat
  _sensorData : List (List Nat)
deriving Repr, DecidableEq

/-- `resetMeasurement`: `_sensorDataIdx = 0; _sensorData.clear();`. -/
def resetMeasurement (d : BaseDevice) : BaseDevice :=
  { d with _sensorDataIdx := 0, _sensorData := [] }

/-- The bytes of a C string: everything before the first NUL. -/
def cString (s : List Nat) : List Nat := s.takeWhile (fun c => c != 0)

/-- The first constructor: `strncpy` of both names into their bounded buffers, the trigger
flag, then `resetMeasurement()`. Encryption is off; the key, address and counter members
are not touched by this constructor and are represented by empty / zero values. -/
def BaseDevice.create (K : Definitions) (shortName completeName : List Nat)
    (isTriggerBased : Bool) : BaseDevice :=
  resetMeasurement
    { _shortName := (cString shortName).take MAX_LENGTH_SHORT_NAME
      _completeName := (cString completeName).take K.MAX_LENGTH_COMPLETE_NAME
      _triggerDevice := isTriggerBased
      _useEncryption := false
      _counter := 0
      bindKey := []
      _macAddress := []
      _sensorDataIdx := 0
      _sensorData := [] }

/-- The second constructor: delegates to the first, then sets `_useEncryption = true`,
stores the `uint32_t` counter and copies the key and the hardware address. -/
def BaseDevice.createEncrypted (K : Definitions) (shortName completeName : List Nat)
    (isTriggerBased : Bool) (key macAddress : List Nat) (counter : Nat) : BaseDevice :=
  { BaseDevice.create K shortName completeName isTriggerBased with
    _useEncryption := true
    _counter := counter % 2 ^ 32
    bindKey := key
    _macAddress := macAddress }

/-- Arithmetic of `size_t` (32 bits on the Arduino targets of the library): the value of an
integer expression reduced modulo `2 ^ 32`. -/
def wrapSizeT (x : Int) : Nat := (x % 2 ^ 32).toNat

/-- Conversion of a `size_t` value to `int`: the two's-complement reading of the low 32
bits. -/
def toInt (n : Nat) : Int :=
  if n % 2 ^ 32 < 2 ^ 31 then ((n % 2 ^ 32 : Nat) : Int) else ((n % 2 ^ 32 : Nat) : Int) - 2 ^ 32

/-- The local `remainingBytes` of `hasEnoughSpace(uint8_t)`:
`(MAX_MEASUREMENT_SIZE - _sensorDataIdx) + CURRENT_BYTE - (_useEncryption ? 8 : 0)`,
computed in `size_t` and converted to `int`. -/
def remainingBytes (d : BaseDevice) : Int :=
  toInt (wrapSizeT
    ((wrapSizeT ((wrapSizeT ((MAX_MEASUREMENT_SIZE : Int) - d._sensorDataIdx) : Int) + 1) : Int)
      - (if d._useEncryption then (ENCRYPTION_ADDITIONAL_BYTES : Int) else 0)))

/-- `hasEnoughSpace(uint8_t size)`. The parameter is a `uint8_t`: the argument of every call
(a `size_t` sum) is converted modulo 256 on the way in. -/
def hasEnoughSpace (size : Nat) (d : BaseDevice) : Bool :=
  decide (remainingBytes d ≥ ((size % 256 : Nat) : Int))

/-- `hasEnoughSpace(BtHomeState sensor)`. -/
def hasEnoughSpaceFor (sensor : BtHomeState) (d : BaseDevice) : Bool :=
  hasEnoughSpace (sensor.byteCount + TYPE_INDICATOR_SIZE) d

/-- The entry built by `pushBytes`: the sensor id, then for `i < byteCount` the byte
`(value2 >> (8 * i)) & 0xff`. -/
def valueBytes (value2 : Nat) (byteCount : Nat) : List Nat :=
  (List.range byteCount).map (fun i => (value2 / 2 ^ (8 * i)) % 256)

/-- `pushBytes`: appends the entry and advances the `uint8_t` counter by
`byteCount + TYPE_INDICATOR_SIZE`; always returns `true`. -/
def pushBytes (value2 : Nat) (sensor : BtHomeState) (d : BaseDevice) : Bool × BaseDevice :=
  (true,
    { d with
      _sensorData := d._sensorData ++ [sensor.id :: valueBytes value2 sensor.byteCount]
      _sensorDataIdx := (d._sensorDataIdx + (sensor.byteCount + TYPE_INDICATOR_SIZE)) % 256 })

/-- `addState(BtHomeState sensor, uint8_t state)`. -/
def addState (sensor : BtHomeState) (state : Nat) (d : BaseDevice) : Bool × BaseDevice :=
  if !hasEnoughSpaceFor sensor d then (false, d)
  else pushBytes (state % 256) sensor d

/-- `addState(BtHomeState sensor, uint8_t state, uint8_t steps)` with
`uint16_t stepState = ((uint16_t)steps << 8 | state)`. -/
def addStateSteps (sensor : BtHomeState) (state steps : Nat) (d : BaseDevice) :
    Bool × BaseDevice :=
  if !hasEnoughSpaceFor sensor d then (false, d)
  else pushBytes ((((steps % 256) * 256) ||| (state % 256)) % 2 ^ 16) sensor d

/-- `addInteger<T>`: the capacity check, then `pushBytes(scaledValue, sensor)`.
`scaledValue` is the value of `static_cast<T>(static_cast<double>(value) / sensor.scale)`
read as a 64-bit pattern; the expression itself is `scaledValue`, and
`addUnsignedIntegerValue` / `addSignedIntegerValue` are the calls with it evaluated. -/
def addInteger (sensor : BtHomeState) (scaledValue : Nat) (d : BaseDevice) :
    Bool × BaseDevice :=
  if !hasEnoughSpaceFor sensor d then (false, d)
  else pushBytes (scaledValue % 2 ^ 64) sensor d

/-- `addUnsignedInteger`: `addInteger<uint64_t>`. -/
def addUnsignedInteger (sensor : BtHomeState) (scaledValue : Nat) (d : BaseDevice) :
    Bool × BaseDevice :=
  addInteger sensor scaledValue d

/-- `addSignedInteger`: `addInteger<int64_t>`; the signed scaled value reaches the
`uint64_t` parameter of `pushBytes` as its two's complement. -/
def addSignedInteger (sensor : BtHomeState) (scaledValue : Int) (d : BaseDevice) :
    Bool × BaseDevice :=
  addInteger sensor (scaledValue % 2 ^ 64).toNat d

/-- `addFloat`: the capacity check, then `pushBytes(static_cast<uint64_t>(scaledValue))`;
`scaledValue` is the result of that cast. -/
def addFloat (sensor : BtHomeState) (scaledValue : Nat) (d : BaseDevice) :
    Bool × BaseDevice :=
  if !hasEnoughSpaceFor sensor d then (false, d)
  else pushBytes (scaledValue % 2 ^ 64) sensor d

/-- The constant `RAW_HEADER_BYTE_SIZE` local to `addRaw`. -/
def RAW_HEADER_BYTE_SIZE : Nat := 2

/-- `addRaw(uint8_t sensorId, uint8_t *value, uint8_t size)`. `value` is the memory behind
the pointer (a cell that is not there reads as 0). The sum `size + RAW_HEADER_BYTE_SIZE` is
a `size_t`; it is narrowed by the `uint8_t` parameter of `hasEnoughSpace` and by the
`uint8_t` counter it is added to. -/
def addRaw (sensorId : Nat) (value : List Nat) (size : Nat) (d : BaseDevice) :
    Bool × BaseDevice :=
  if !hasEnoughSpace (size % 256 + RAW_HEADER_BYTE_SIZE) d then (false, d)
  else
    (true,
      { d with
        _sensorData := d._sensorData ++
          [(sensorId % 256) :: (size % 256) ::
            (List.range (size % 256)).map (fun i => value.getD i 0 % 256)]
        _sensorDataIdx := (d._sensorDataIdx + (size % 256 + RAW_HEADER_BYTE_SIZE)) % 256 })

/-! ## Assembling the advertisement -/

/-- The comparator handed to `std::sort`: `a[0] < b[0]` (an entry always starts with its
sensor id; the head of an empty entry reads as 0). -/
def entryLess (a b : List Nat) : Bool := decide (a.headD 0 < b.headD 0)

/-- The library routine `std::sort` with the comparator `entryLess`: any function that
returns a rearrangement of its input in which no later element compares less than an
earlier one. The order of elements that compare equal is left open, as it is by the
contract of `std::sort`. -/
structure StdSort where
  sort : List (List Nat) → List (List Nat)
  perm : ∀ l, (sort l).Perm l
  sorted : ∀ l, (sort l).Pairwise (fun a b => entryLess b a = false)

/-- One body of the inner loop of `getMeasurementByteArray`: once `idx` has reached
`MAX_ADVERTISEMENT_SIZE` the function has returned and nothing more is written. -/
def flattenStep (sortedBytes : List Nat) (b : Nat) : List Nat :=
  if sortedBytes.length ≥ MAX_ADVERTISEMENT_SIZE then sortedBytes else sortedBytes ++ [b]

/-- The two nested loops of `getMeasurementByteArray`. -/
def flattenEntries (entries : List (List Nat)) : List Nat :=
  entries.foldl (fun sortedBytes entry => entry.foldl flattenStep sortedBytes) []

/-- `getMeasurementByteArray`: sorts `_sensorData` in place and returns the bytes written
to `sortedBytes` (the returned `size_t` is the length of that list). -/
def getMeasurementByteArray (S : StdSort) (d : BaseDevice) : List Nat × BaseDevice :=
  (flattenEntries (S.sort d._sensorData), { d with _sensorData := S.sort d._sensorData })

/-- The arguments of one call of `mbedtls_ccm_encrypt_and_tag`. -/
structure CcmInput where
  key : List Nat
  nonce : List Nat
  associatedData : List Nat
  plaintext : List Nat
deriving Repr, DecidableEq

/-- The library routine `mbedtls_ccm_encrypt_and_tag` called with tag length `MIC_LEN`: an
arbitrary function that writes as many ciphertext bytes as there are plaintext bytes and
`MIC_LEN` tag bytes. -/
structure Ccm where
  encryptAndTag : CcmInput → List Nat × List Nat
  length_ciphertext : ∀ x, (encryptAndTag x).1.length = x.plaintext.length
  length_tag : ∀ x, (encryptAndTag x).2.length = MIC_LEN

/-- The local `indicatorByte` of `getAdvertisementData`. -/
def indicatorByte (K : Definitions) (d : BaseDevice) : Nat :=
  let b := K.FLAG_VERSION
  let b := if d._triggerDevice then b ||| K.FLAG_TRIGGER else b
  if d._useEncryption then b ||| K.FLAG_ENCRYPT else b

/-- The four bytes of a `uint32_t` in memory order on the little-endian targets of the
library. -/
def counterBytes (c : Nat) : List Nat :=
  [c % 256, c / 2 ^ 8 % 256, c / 2 ^ 16 % 256, c / 2 ^ 24 % 256]

/-- The local array `nonce` of `getAdvertisementData` after `nonce[0..8]` have been assigned
and `memcpy(&nonce[9], countPtr, MIC_LEN)` has run. -/
def buildNonce (K : Definitions) (d : BaseDevice) : List Nat :=
  [d._macAddress.getD 5 0, d._macAddress.getD 4 0, d._macAddress.getD 3 0,
   d._macAddress.getD 2 0, d._macAddress.getD 1 0, d._macAddress.getD 0 0,
   K.UUID1, K.UUID2, K.FLAG_VERSION ||| K.FLAG_ENCRYPT] ++ (counterBytes d._counter).take MIC_LEN

/-- The arguments with which `getAdvertisementData` calls the primitive: the context keyed
with `bindKey`, the nonce, `add = 0` with `add_len = 0`, and the sorted bytes. -/
def ccmInput (K : Definitions) (d : BaseDevice) (sortedBytes : List Nat) : CcmInput :=
  { key := d.bindKey, nonce := buildNonce K d, associatedData := [], plaintext := sortedBytes }

/-- The payload part of `serviceData` (everything after the indicator byte).
Encrypted: `ciphertext[i]` for `i < _sensorDataIdx` (a cell the primitive did not write
reads as 0), then `nonce[9..12]`, then `encryptionTag[0..3]`. Unencrypted: the sorted
bytes. -/
def payload (K : Definitions) (C : Ccm) (d : BaseDevice) (sortedBytes : List Nat) : List Nat :=
  if d._useEncryption then
    (List.range d._sensorDataIdx).map
        (fun i => (C.encryptAndTag (ccmInput K d sortedBytes)).1.getD i 0)
      ++ [(buildNonce K d).getD 9 0, (buildNonce K d).getD 10 0,
          (buildNonce K d).getD 11 0, (buildNonce K d).getD 12 0]
      ++ [(C.encryptAndTag (ccmInput K d sortedBytes)).2.getD 0 0,
          (C.encryptAndTag (ccmInput K d sortedBytes)).2.getD 1 0,
          (C.encryptAndTag (ccmInput K d sortedBytes)).2.getD 2 0,
          (C.encryptAndTag (ccmInput K d sortedBytes)).2.getD 3 0]
  else sortedBytes

/-- The local array `serviceData` when the payload has been written. -/
def serviceData (K : Definitions) (C : Ccm) (d : BaseDevice) (sortedBytes : List Nat) :
    List Nat :=
  [K.SERVICE_DATA, K.UUID1, K.UUID2, indicatorByte K d] ++ payload K C d sortedBytes

/-- The complete-name field, appended when
`bufferDataIndex + completeNameLength + TYPE_INDICATOR_SIZE + CURRENT_BYTE <= 31`. -/
def appendCompleteName (K : Definitions) (d : BaseDevice) (buffer : List Nat) : List Nat :=
  let completeNameLength := min d._completeName.length K.MAX_LENGTH_COMPLETE_NAME
  if buffer.length + completeNameLength + TYPE_INDICATOR_SIZE + 1 ≤ MAX_ADVERTISEMENT_SIZE then
    buffer ++ [(completeNameLength + TYPE_INDICATOR_SIZE) % 256, K.COMPLETE_NAME]
      ++ d._completeName.take completeNameLength
  else buffer

/-- The short-name field, appended when
`bufferDataIndex + TYPE_INDICATOR_SIZE + shortNameLength + CURRENT_BYTE <= 31`. -/
def appendShortName (K : Definitions) (d : BaseDevice) (buffer : List Nat) : List Nat :=
  let shortNameLength := min d._shortName.length MAX_LENGTH_SHORT_NAME
  if buffer.length + TYPE_INDICATOR_SIZE + shortNameLength + 1 ≤ MAX_ADVERTISEMENT_SIZE then
    buffer ++ [(shortNameLength + TYPE_INDICATOR_SIZE) % 256, K.SHORT_NAME]
      ++ d._shortName.take shortNameLength
  else buffer

/-- `getAdvertisementData`: the bytes written to `buffer`, in order (the returned `size_t`
is the length of that list), and the state left behind: `_sensorData` sorted, and
`_counter` incremented as a `uint32_t` when the encrypted branch ran. The running indices
`serviceDataIndex` and `bufferDataIndex` are the lengths of the lists built so far; every
write is `array[index++] = byte`, so the lists are the array contents in index order. Both
indices are `uint8_t`; `frame_length_le_39` shows that they stay below 40 in every state the
public functions can reach. The arrays are declared with `MAX_ADVERTISEMENT_SIZE` cells: a
list longer than 31 stands for writes past the end of the array. -/
def getAdvertisementData (K : Definitions) (C : Ccm) (S : StdSort) (d : BaseDevice) :
    List Nat × BaseDevice :=
  let sortedBytes := (getMeasurementByteArray S d).1
  let d1 := (getMeasurementByteArray S d).2
  let sd := serviceData K C d1 sortedBytes
  let buffer := [K.FLAG1, K.FLAG2, K.FLAG3, sd.length % 256] ++ sd
  let buffer := appendShortName K d1 (appendCompleteName K d1 buffer)
  (buffer,
    if d1._useEncryption then { d1 with _counter := (d1._counter + 1) % 2 ^ 32 } else d1)

/-! ## Sequences of calls -/

/-- One call of an add operation, with its arguments. -/
inductive AddOp where
  | state (sensor : BtHomeState) (state : Nat)
  | stateSteps (sensor : BtHomeState) (state steps : Nat)
  | unsignedInteger (sensor : BtHomeState) (scaledValue : Nat)
  | signedInteger (sensor : BtHomeState) (scaledValue : Int)
  | float (sensor : BtHomeState) (scaledValue : Nat)
  | raw (sensorId : Nat) (value : List Nat) (size : Nat)
deriving Repr, DecidableEq

/-- Running one add operation: its boolean result and the state it leaves. -/
def AddOp.apply : AddOp → BaseDevice → Bool × BaseDevice
  | .state sensor st, d => addState sensor st d
  | .stateSteps sensor st steps, d => addStateSteps sensor st steps d
  | .unsignedInteger sensor v, d => addUnsignedInteger sensor v d
  | .signedInteger sensor v, d => addSignedInteger sensor v d
  | .float sensor v, d => addFloat sensor v d
  | .raw sensorId value size, d => addRaw sensorId value size d

/-- The number of bytes the entry of an add operation takes: `byteCount + 1` for a typed
add, `size + 2` for `addRaw` (with `size` already a `uint8_t`). -/
def AddOp.required : AddOp → Nat
  | .state sensor _ => sensor.byteCount + TYPE_INDICATOR_SIZE
  | .stateSteps sensor _ _ => sensor.byteCount + TYPE_INDICATOR_SIZE
  | .unsignedInteger sensor _ => sensor.byteCount + TYPE_INDICATOR_SIZE
  | .signedInteger sensor _ => sensor.byteCount + TYPE_INDICATOR_SIZE
  | .float sensor _ => sensor.byteCount + TYPE_INDICATOR_SIZE
  | .raw _ _ size => size % 256 + RAW_HEADER_BYTE_SIZE

/-- Running a sequence of add operations, whatever each of them returns. -/
def runAdds (ops : List AddOp) (d : BaseDevice) : BaseDevice :=
  ops.foldl (fun d a => (a.apply d).2) d

/-- One call of a public member function. -/
inductive Op where
  | add (a : AddOp)
  | reset
  | advertise
deriving Repr, DecidableEq

/-- The state after one call. -/
def Op.step (K : Definitions) (C : Ccm) (S : StdSort) : Op → BaseDevice → BaseDevice
  | .add a, d => (a.apply d).2
  | .reset, d => resetMeasurement d
  | .advertise, d => (getAdvertisementData K C S d).2

/-- The state after a sequence of calls. -/
def runOps (K : Definitions) (C : Ccm) (S : StdSort) (ops : List Op) (d : BaseDevice) :
    BaseDevice :=
  ops.foldl (fun d op => op.step K C S d) d

/-- The calls of `getAdvertisementData` within a sequence of calls, in order: for each the
state in which it was called, the frame it wrote and the state it left. -/
def trace (K : Definitions) (C : Ccm) (S : StdSort) :
    List Op → BaseDevice → List (BaseDevice × List Nat × BaseDevice)
  | [], _ => []
  | .advertise :: ops, d =>
      (d, (getAdvertisementData K C S d).1, (getAdvertisementData K C S d).2)
        :: trace K C S ops (getAdvertisementData K C S d).2
  | .add a :: ops, d => trace K C S ops ((a.apply d).2)
  | .reset :: ops, d => trace K C S ops (resetMeasurement d)

/-- The four counter bytes of an encrypted frame written in state `d`: they follow the 8
header bytes and the `_sensorDataIdx` copied ciphertext bytes. -/
def emittedCounterBytes (d : BaseDevice) (frame : List Nat) : List Nat :=
  (frame.drop (8 + d._sensorDataIdx)).take 4

/-- The value of four little-endian bytes. -/
def decodeCounter (bytes : List Nat) : Nat :=
  bytes.getD 0 0 + 2 ^ 8 * bytes.getD 1 0 + 2 ^ 16 * bytes.getD 2 0 + 2 ^ 24 * bytes.getD 3 0

/-! ## Instances of the parameters, for evaluation -/

/-- The order `a[0] <= b[0]` on entries. -/
def entryLe (a b : List Nat) : Prop := a.headD 0 ≤ b.headD 0

instance entryLe_decidable : DecidableRel entryLe := fun a b =>
  inferInstanceAs (Decidable (a.headD 0 ≤ b.headD 0))

instance entryLe_total : IsTotal (List Nat) entryLe :=
  ⟨fun a b => Nat.le_total (a.headD 0) (b.headD 0)⟩

instance entryLe_trans : IsTrans (List Nat) entryLe :=
  ⟨fun _ _ _ hab hbc => Nat.le_trans hab hbc⟩

/-- An implementation of `std::sort`: insertion sort. -/
def insertionStdSort : StdSort where
  sort := List.insertionSort entryLe
  perm := List.perm_insertionSort entryLe
  sorted := fun l =>
    (List.sorted_insertionSort entryLe l).imp
      (fun h => by simpa [entryLess, entryLe] using h)

/-- A stand-in for AES-CCM that satisfies the length contract: every plaintext byte is
complemented, the tag is the first four nonce bytes. -/
def sampleCcm : Ccm where
  encryptAndTag := fun x =>
    (x.plaintext.map (fun b => 255 - b % 256),
      [x.nonce.getD 0 0, x.nonce.getD 1 0, x.nonce.getD 2 0, x.nonce.getD 3 0])
  length_ciphertext := fun x => by simp
  length_tag := fun _ => rfl

/-- The byte values of the BTHome v2 format, as one instance of `Definitions`. -/
def bthomeDefinitions : Definitions where
  FLAG1 := 0x02
  FLAG2 := 0x01
  FLAG3 := 0x06
  SERVICE_DATA := 0x16
  UUID1 := 0xD2
  UUID2 := 0xFC
  FLAG_VERSION := 0x40
  FLAG_TRIGGER := 0x04
  FLAG_ENCRYPT := 0x01
  COMPLETE_NAME := 0x09
  SHORT_NAME := 0x08
  MAX_LENGTH_COMPLETE_NAME := 20

/-- The short name `"T1"`. -/
def nameT1 : List Nat := [0x54, 0x31]

/-- The complete name `"TempSensor1"`. -/
def nameTempSensor1 : List Nat :=
  [0x54, 0x65, 0x6D, 0x70, 0x53, 0x65, 0x6E, 0x73, 0x6F, 0x72, 0x31]

/-- An unencrypted device named `"T1"` / `"TempSensor1"`, not trigger based. -/
def plainDevice : BaseDevice :=
  BaseDevice.create bthomeDefinitions nameT1 nameTempSensor1 false

/-- An encrypted device with the given trigger flag and initial counter. -/
def encryptedDevice (isTriggerBased : Bool) (counter : Nat) : BaseDevice :=
  BaseDevice.createEncrypted bthomeDefinitions nameT1 nameTempSensor1 isTriggerBased
    (List.replicate 16 0x11) [0xA1, 0xA2, 0xA3, 0xA4, 0xA5, 0xA6] counter

/-! ## Derived notions used in the statements -/

/-- The encryption overhead of a device: `ENCRYPTION_ADDITIONAL_BYTES` when encryption is
on, nothing otherwise. -/
def overhead (d : BaseDevice) : Nat :=
  if d._useEncryption then ENCRYPTION_ADDITIONAL_BYTES else 0

/-- The entry an add operation appends when it is accepted. -/
def AddOp.entry : AddOp → List Nat
  | .state sensor st => sensor.id :: valueBytes (st % 256) sensor.byteCount
  | .stateSteps sensor st steps =>
      sensor.id :: valueBytes ((((steps % 256) * 256) ||| (st % 256)) % 2 ^ 16) sensor.byteCount
  | .unsignedInteger sensor v => sensor.id :: valueBytes (v % 2 ^ 64) sensor.byteCount
  | .signedInteger sensor v =>
      sensor.id :: valueBytes ((v % 2 ^ 64).toNat % 2 ^ 64) sensor.byteCount
  | .float sensor v => sensor.id :: valueBytes (v % 2 ^ 64) sensor.byteCount
  | .raw sensorId value size =>
      (sensorId % 256) :: (size % 256) ::
        (List.range (size % 256)).map (fun i => value.getD i 0 % 256)

/-- The total number of bytes held in the entries of the buffer. -/
def storedBytes (d : BaseDevice) : Nat := (d._sensorData.map List.length).sum

/-- The 254-byte raw value used to exercise `addRaw` at the top of its `uint8_t` length
range. -/
def raw254 : List Nat := List.replicate 254 0xAA

/-- The entries of the add operations of a sequence that return `true`, in call order. -/
def acceptedEntries : List AddOp → BaseDevice → List (List Nat)
  | [], _ => []
  | a :: ops, d =>
      if (a.apply d).1 then a.entry :: acceptedEntries ops (a.apply d).2
      else acceptedEntries ops (a.apply d).2

/-- The state a fresh unencrypted device is in after the accepted `addRaw` of length 254. -/
def plainAfterRaw254 (K : Definitions) (sn cn : List Nat) (t : Bool) : BaseDevice :=
  (addRaw 0x54 raw254 254 (BaseDevice.create K sn cn t)).2

/-- A sequence of calls with two frames and buffer activity in between. -/
def sampleCalls : List Op :=
  [Op.advertise, Op.add (AddOp.state ⟨0x0F, 1⟩ 1), Op.reset,
   Op.add (AddOp.unsignedInteger ⟨0x02, 2⟩ 2350), Op.advertise]

/-- The state an encrypted device (not trigger based, counter 7) is in after the accepted
`addRaw` of length 254. -/
def encryptedAfterRaw254 : BaseDevice :=
  (addRaw 0x54 raw254 254 (encryptedDevice false 7)).2

/-- The contents of `buffer` in `getAdvertisementData` when the service data has been copied
and no name has been looked at yet: the three flag bytes, the length byte, the service
data. -/
def frameBase (K : Definitions) (C : Ccm) (S : StdSort) (d : BaseDevice) : List Nat :=
  [K.FLAG1, K.FLAG2, K.FLAG3,
      (serviceData K C (getMeasurementByteArray S d).2
        (getMeasurementByteArray S d).1).length % 256]
    ++ serviceData K C (getMeasurementByteArray S d).2 (getMeasurementByteArray S d).1

/-- The value of a little-endian byte sequence. -/
def decodeLE : List Nat → Nat
  | [] => 0
  | b :: bs => b + 256 * decodeLE bs

/-- Whether every add operation of a sequence returns `true`. -/
def allAccepted : List AddOp → BaseDevice → Bool
  | [], _ => true
  | a :: ops, d => (a.apply d).1 && allAccepted ops (a.apply d).2

/-- The leading sensor id of an entry. -/
def leadingId (entry : List Nat) : Nat := entry.headD 0

/-- A device with a 13-byte complete name (`"KitchenSensor"`) and the short name `"T1"`. -/
def longNameDevice : BaseDevice :=
  BaseDevice.create bthomeDefinitions nameT1
    [0x4B, 0x69, 0x74, 0x63, 0x68, 0x65, 0x6E, 0x53, 0x65, 0x6E, 0x73, 0x6F, 0x72] false

/-- The descriptor and the 64-bit value that a typed add operation hands to `pushBytes`
(`addRaw` does not call `pushBytes`). -/
def AddOp.pushed : AddOp → Option (BtHomeState × Nat)
  | .state sensor st => some (sensor, st % 256)
  | .stateSteps sensor st steps =>
      some (sensor, (((steps % 256) * 256) ||| (st % 256)) % 2 ^ 16)
  | .unsignedInteger sensor v => some (sensor, v % 2 ^ 64)
  | .signedInteger sensor v => some (sensor, (v % 2 ^ 64).toNat % 2 ^ 64)
  | .float sensor v => some (sensor, v % 2 ^ 64)
  | .raw _ _ _ => none

/-- One reading (id `0x4E`, width 8) on the device with the long complete name. -/
def longNameDeviceWithReading : BaseDevice :=
  (addUnsignedInteger ⟨0x4E, 8⟩ 123456 longNameDevice).2

/-- Three readings with different sensor ids (`0x2E` humidity, `0x01` battery, `0x02`
temperature), in one call order. -/
def threeReadings : List AddOp :=
  [AddOp.unsignedInteger ⟨0x2E, 1⟩ 55, AddOp.unsignedInteger ⟨0x01, 1⟩ 97,
   AddOp.signedInteger ⟨0x02, 2⟩ 2350]

/-- The readings of `threeReadings` in another call order. -/
def threeReadingsReordered : List AddOp :=
  [AddOp.signedInteger ⟨0x02, 2⟩ 2350, AddOp.unsignedInteger ⟨0x2E, 1⟩ 55,
   AddOp.unsignedInteger ⟨0x01, 1⟩ 97]

/-- Whether the required size of a call fits a byte; `true` for the calls that are not add
operations. -/
def Op.fitsByte : Op → Bool
  | .add a => decide (a.required < 256)
  | .reset => true
  | .advertise => true

/-- Rounding a rational to the nearest integer, a tie to the even neighbour. -/
def roundHalfEven (x : ℚ) : ℤ :=
  if x - ⌊x⌋ < 1 / 2 then ⌊x⌋
  else if 1 / 2 < x - ⌊x⌋ then ⌊x⌋ + 1
  else if ⌊x⌋ % 2 = 0 then ⌊x⌋ else ⌊x⌋ + 1

/-- The `double` nearest to a rational (53-bit significand, ties to even): with
`2 ^ k <= |x| < 2 ^ (k + 1)` the result is the multiple of `2 ^ (k - 52)` nearest to `x`.
This is the result of `static_cast<double>` on an integer and of a `double` operation whose
exact result is `x`. -/
def toDouble (x : ℚ) : ℚ :=
  if x = 0 then 0
  else roundHalfEven (x / 2 ^ (Int.log 2 |x| - 52)) * 2 ^ (Int.log 2 |x| - 52)

/-- The `double` value of `static_cast<double>(value) / sensor.scale`. -/
def scaleQuotient (value : ℤ) (scale : ℚ) : ℚ := toDouble (toDouble value / scale)

/-- The conversion of a `double` to an integer type: the fractional part is discarded
(rounding toward zero). -/
def truncate (q : ℚ) : ℤ := if 0 ≤ q then ⌊q⌋ else ⌈q⌉

/-- The local `scaledValue` of `addInteger<T>`:
`static_cast<T>(static_cast<double>(value) / sensor.scale)`, for a quotient whose integer
part is a value of `T` (the conversion is undefined otherwise). -/
def scaledValue (value : ℤ) (scale : ℚ) : ℤ := truncate (scaleQuotient value scale)

/-- Whether an integer is a value of the type `T` of `addInteger<T>`: `int64_t` for
`addSignedInteger`, `uint64_t` for `addUnsignedInteger`. -/
def inTypeRange (isSigned : Bool) (x : ℤ) : Prop :=
  if isSigned then -2 ^ 63 ≤ x ∧ x < 2 ^ 63 else 0 ≤ x ∧ x < 2 ^ 64

/-- The descriptor `BtHomeType` of `data_types.h` with its scale: the `float` member `scale`
is the rational it stands for. -/
structure BtHomeType where
  id : Nat
  byteCount : Nat
  scale : ℚ
deriving Repr, DecidableEq

/-- The id and width of a `BtHomeType`. -/
def BtHomeType.state (sensor : BtHomeType) : BtHomeState := ⟨sensor.id, sensor.byteCount⟩

/-- `addUnsignedInteger(sensor, value)` with the scaling expression evaluated:
`addInteger<uint64_t>`. -/
def addUnsignedIntegerValue (sensor : BtHomeType) (value : Nat) (d : BaseDevice) :
    Bool × BaseDevice :=
  addUnsignedInteger sensor.state (scaledValue value sensor.scale).toNat d

/-- `addSignedInteger(sensor, value)` with the scaling expression evaluated:
`addInteger<int64_t>`. -/
def addSignedIntegerValue (sensor : BtHomeType) (value : ℤ) (d : BaseDevice) :
    Bool × BaseDevice :=
  addSignedInteger sensor.state (scaledValue value sensor.scale) d

/-- The `float` nearest to 0.1, the scale of the BTHome readings with one decimal:
`13421773 / 2 ^ 27`. -/
def scaleOneTenth : ℚ := 13421773 / 134217728

/-- A signed 8-bit reading with id `0x57`, a call of `getAdvertisementData`, a call of
`addRaw` with id `0x54` and length 254, and a second call of `getAdvertisementData`; no
`resetMeasurement` in between. -/
def readingThenRaw254 : List Op :=
  [Op.add (AddOp.signedInteger ⟨0x57, 1⟩ 25), Op.advertise,
   Op.add (AddOp.raw 0x54 raw254 254), Op.advertise]

/-! ## Theorems -/

theorem remainingBytes_eq (d : BaseDevice) (h : d._sensorDataIdx < 256) :
    remainingBytes d = 23 - (d._sensorDataIdx : Int) - (if d._useEncryption then 8 else 0) := by
  unfold remainingBytes toInt wrapSizeT MAX_MEASUREMENT_SIZE MAX_ADVERTISEMENT_SIZE HEADER_SIZE
    ENCRYPTION_ADDITIONAL_BYTES
  cases d._useEncryption <;> simp <;> omega

theorem hasEnoughSpace_iff (size : Nat) (d : BaseDevice) (h : d._sensorDataIdx < 256) :
    hasEnoughSpace size d = true ↔ d._sensorDataIdx + overhead d + size % 256 ≤ 23 := by
  unfold hasEnoughSpace overhead ENCRYPTION_ADDITIONAL_BYTES
  rw [decide_eq_true_iff, remainingBytes_eq d h]
  cases d._useEncryption <;> simp <;> omega

/-- Every add operation is the capacity check on its required size followed, when the check
passes, by appending its entry and advancing the `uint8_t` counter. -/
theorem AddOp.apply_eq (a : AddOp) (d : BaseDevice) :
    a.apply d =
      if hasEnoughSpace a.required d then
        (true,
          { d with
            _sensorData := d._sensorData ++ [a.entry]
            _sensorDataIdx := (d._sensorDataIdx + a.required) % 256 })
      else (false, d) := by
  cases a <;>
    simp only [AddOp.apply, AddOp.required, AddOp.entry, addState, addStateSteps,
      addUnsignedInteger, addSignedInteger, addInteger, addFloat, addRaw, pushBytes,
      hasEnoughSpaceFor] <;>
    split <;> simp_all

theorem foldl_flattenStep (out l : List Nat) :
    l.foldl flattenStep out = out ++ l.take (MAX_ADVERTISEMENT_SIZE - out.length) := by
  induction l generalizing out with
  | nil => simp
  | cons b l ih =>
    rw [List.foldl_cons, ih]
    unfold flattenStep
    split
    · rename_i h
      have : MAX_ADVERTISEMENT_SIZE - out.length = 0 := by omega
      simp [this]
    · rename_i h
      have : MAX_ADVERTISEMENT_SIZE - out.length = (MAX_ADVERTISEMENT_SIZE - (out ++ [b]).length) + 1 := by
        simp; omega
      rw [this, List.take_succ_cons]
      simp

theorem foldl_flattenEntries (out : List Nat) (entries : List (List Nat)) :
    entries.foldl (fun sortedBytes entry => entry.foldl flattenStep sortedBytes) out =
      out ++ entries.flatten.take (MAX_ADVERTISEMENT_SIZE - out.length) := by
  induction entries generalizing out with
  | nil => simp
  | cons e es ih =>
    rw [List.foldl_cons, ih, foldl_flattenStep, List.flatten_cons, List.append_assoc]
    congr 1
    rw [List.take_append_eq_append_take, List.length_append, List.length_take]
    congr 2
    omega

theorem flattenEntries_eq (entries : List (List Nat)) :
    flattenEntries entries = entries.flatten.take MAX_ADVERTISEMENT_SIZE := by
  unfold flattenEntries
  rw [foldl_flattenEntries]
  simp

theorem StdSort.sort_singleton (S : StdSort) (e : List Nat) : S.sort [e] = [e] :=
  List.perm_singleton.mp (S.perm [e])

theorem appendCompleteName_eq_self (K : Definitions) (d : BaseDevice) (buffer : List Nat)
    (h : 30 ≤ buffer.length) : appendCompleteName K d buffer = buffer := by
  unfold appendCompleteName MAX_ADVERTISEMENT_SIZE TYPE_INDICATOR_SIZE
  simp only
  rw [if_neg (by omega)]

theorem appendShortName_eq_self (K : Definitions) (d : BaseDevice) (buffer : List Nat)
    (h : 30 ≤ buffer.length) : appendShortName K d buffer = buffer := by
  unfold appendShortName MAX_ADVERTISEMENT_SIZE TYPE_INDICATOR_SIZE
  simp only
  rw [if_neg (by omega)]

theorem appendCompleteName_length_le (K : Definitions) (d : BaseDevice) (buffer : List Nat)
    (h : buffer.length ≤ 31) : (appendCompleteName K d buffer).length ≤ 31 := by
  unfold appendCompleteName MAX_ADVERTISEMENT_SIZE TYPE_INDICATOR_SIZE
  simp only
  split
  · simp only [List.length_append, List.length_take, List.length_cons, List.length_nil]
    omega
  · exact h

theorem appendShortName_length_le (K : Definitions) (d : BaseDevice) (buffer : List Nat)
    (h : buffer.length ≤ 31) : (appendShortName K d buffer).length ≤ 31 := by
  unfold appendShortName MAX_ADVERTISEMENT_SIZE TYPE_INDICATOR_SIZE MAX_LENGTH_SHORT_NAME
  simp only
  split
  · simp only [List.length_append, List.length_take, List.length_cons, List.length_nil]
    omega
  · exact h

/-- The sorted state and the sorted bytes do not touch the names and flags. -/
theorem getAdvertisementData_frame (K : Definitions) (C : Ccm) (S : StdSort) (d : BaseDevice) :
    (getAdvertisementData K C S d).1 =
      appendShortName K d (appendCompleteName K d
        ([K.FLAG1, K.FLAG2, K.FLAG3,
            ((payload K C (getMeasurementByteArray S d).2
              (flattenEntries (S.sort d._sensorData))).length + 4) % 256,
            K.SERVICE_DATA, K.UUID1, K.UUID2, indicatorByte K d]
          ++ payload K C (getMeasurementByteArray S d).2
              (flattenEntries (S.sort d._sensorData)))) := by
  rfl

theorem create_overhead (K : Definitions) (sn cn : List Nat) (t : Bool) :
    overhead (BaseDevice.create K sn cn t) = 0 := rfl

set_option maxRecDepth 100000 in
theorem raw254_read :
    (List.range (254 % 256)).map (fun i => raw254.getD i 0 % 256) = raw254 := by
  rfl

theorem addRaw_254_create (K : Definitions) (sn cn : List Nat) (t : Bool) :
    addRaw 0x54 raw254 254 (BaseDevice.create K sn cn t) =
      (true, { BaseDevice.create K sn cn t with
                _sensorData := [0x54 :: 254 :: raw254], _sensorDataIdx := 0 }) := by
  have h : hasEnoughSpace (254 % 256 + RAW_HEADER_BYTE_SIZE) (BaseDevice.create K sn cn t)
      = true := by
    rw [hasEnoughSpace_iff _ _ (by simp [BaseDevice.create, resetMeasurement]), create_overhead]
    simp [BaseDevice.create, resetMeasurement, RAW_HEADER_BYTE_SIZE]
  unfold addRaw
  rw [h, raw254_read]
  simp [BaseDevice.create, resetMeasurement, RAW_HEADER_BYTE_SIZE]

theorem payload_unencrypted (K : Definitions) (C : Ccm) (d : BaseDevice) (sb : List Nat)
    (h : d._useEncryption = false) : payload K C d sb = sb := by
  simp [payload, h]

theorem raw254_length : raw254.length = 254 :=
  List.length_replicate 254 0xAA

theorem flatten_raw254_entry (S : StdSort) :
    flattenEntries (S.sort [0x54 :: 254 :: raw254]) = (0x54 :: 254 :: raw254).take 31 := by
  rw [S.sort_singleton, flattenEntries_eq]
  simp [MAX_ADVERTISEMENT_SIZE]

/-- C1 (evaluation at the failing input): on a fresh unencrypted device, whatever its names,
`addRaw` with length 254 returns `true`, and the frame `getAdvertisementData` then writes has
39 bytes, more than the 31 of `MAX_ADVERTISEMENT_SIZE`. -/
theorem addRaw_254_frame_has_39_bytes (K : Definitions) (C : Ccm) (S : StdSort)
    (sn cn : List Nat) (t : Bool) :
    (addRaw 0x54 raw254 254 (BaseDevice.create K sn cn t)).1 = true ∧
      (getAdvertisementData K C S
        (addRaw 0x54 raw254 254 (BaseDevice.create K sn cn t)).2).1.length = 39 := by
  rw [addRaw_254_create]
  refine ⟨rfl, ?_⟩
  rw [getAdvertisementData_frame]
  simp only []
  rw [payload_unencrypted _ _ _ _ rfl, flatten_raw254_entry]
  have hlen : ((0x54 :: 254 :: raw254).take 31).length = 31 := by
    simp [raw254_length]
  rw [appendShortName_eq_self, appendCompleteName_eq_self]
  · simp [raw254_length]
  · simp [raw254_length]
  · rw [appendCompleteName_eq_self] <;> simp [raw254_length]

/-- Away from the `uint8_t` narrowing (the required size fits a byte) an add operation is
accepted exactly when its required size is at most
`22 - consumed + 1 - overhead`, and a rejected operation leaves the whole state as it was. -/
theorem add_accepted_iff_of_required_lt (a : AddOp) (d : BaseDevice)
    (hidx : d._sensorDataIdx < 256) (hreq : a.required < 256) :
    ((a.apply d).1 = true ↔
        (a.required : Int) ≤ 22 - (d._sensorDataIdx : Int) + 1 - (overhead d : Int)) ∧
      ((a.apply d).1 = false → (a.apply d).2 = d) := by
  rw [AddOp.apply_eq]
  have h := hasEnoughSpace_iff a.required d hidx
  rw [Nat.mod_eq_of_lt hreq] at h
  by_cases hs : hasEnoughSpace a.required d = true
  · rw [if_pos hs]
    have := h.mp hs
    refine ⟨⟨fun _ => by omega, fun _ => rfl⟩, fun hf => by simp at hf⟩
  · rw [if_neg hs]
    have : ¬ (d._sensorDataIdx + overhead d + a.required ≤ 23) := fun hle => hs (h.mpr hle)
    refine ⟨⟨fun hf => by simp at hf, fun hle => absurd (by omega) this⟩, fun _ => rfl⟩

/-- C2 (evaluation at the failing input): on a fresh unencrypted device `addRaw` with length
254 requires 256 bytes, more than the remaining `22 - 0 + 1 - 0 = 23`, and yet it returns
`true` and appends its 256-byte entry. -/
theorem addRaw_254_accepted_beyond_remaining (K : Definitions) (sn cn : List Nat) (t : Bool) :
    (22 : Int) - ((BaseDevice.create K sn cn t)._sensorDataIdx : Int) + 1
          - (overhead (BaseDevice.create K sn cn t) : Int)
        < ((AddOp.raw 0x54 raw254 254).required : Int) ∧
      ((AddOp.raw 0x54 raw254 254).apply (BaseDevice.create K sn cn t)).1 = true ∧
      ((AddOp.raw 0x54 raw254 254).apply (BaseDevice.create K sn cn t)).2._sensorData
        = [0x54 :: 254 :: raw254] := by
  refine ⟨?_, ?_, ?_⟩
  · rw [create_overhead]
    simp [AddOp.required, RAW_HEADER_BYTE_SIZE, BaseDevice.create, resetMeasurement]
  · show (addRaw 0x54 raw254 254 (BaseDevice.create K sn cn t)).1 = true
    rw [addRaw_254_create]
  · show (addRaw 0x54 raw254 254 (BaseDevice.create K sn cn t)).2._sensorData = _
    rw [addRaw_254_create]

theorem add_preserves_overhead (a : AddOp) (d : BaseDevice) :
    overhead (a.apply d).2 = overhead d := by
  rw [AddOp.apply_eq]
  split <;> rfl

theorem add_preserves_bound (a : AddOp) (d : BaseDevice)
    (h : d._sensorDataIdx + overhead d ≤ 23) :
    (a.apply d).2._sensorDataIdx + overhead (a.apply d).2 ≤ 23 := by
  rw [add_preserves_overhead, AddOp.apply_eq]
  by_cases hs : hasEnoughSpace a.required d = true
  · rw [if_pos hs]
    have := (hasEnoughSpace_iff a.required d (by omega)).mp hs
    show (d._sensorDataIdx + a.required) % 256 + overhead d ≤ 23
    omega
  · rw [if_neg hs]
    exact h

theorem runAdds_preserves_overhead (ops : List AddOp) (d : BaseDevice) :
    overhead (runAdds ops d) = overhead d := by
  induction ops generalizing d with
  | nil => rfl
  | cons a ops ih =>
    show overhead (runAdds ops (a.apply d).2) = _
    rw [ih, add_preserves_overhead]

theorem runAdds_preserves_bound (ops : List AddOp) (d : BaseDevice)
    (h : d._sensorDataIdx + overhead d ≤ 23) :
    (runAdds ops d)._sensorDataIdx + overhead (runAdds ops d) ≤ 23 := by
  induction ops generalizing d with
  | nil => exact h
  | cons a ops ih => exact ih _ (add_preserves_bound a d h)

/-- C3 (as amended): in every state reachable from an empty Measurement Buffer by add
operations, the consumed-byte counter plus the encryption overhead (8 with encryption, 0
without) is at most 23, that is `MAX_MEASUREMENT_SIZE` plus the one `CURRENT_BYTE` that
`hasEnoughSpace` grants. -/
theorem consumed_plus_overhead_le_23 (ops : List AddOp) (d : BaseDevice) :
    (runAdds ops (resetMeasurement d))._sensorDataIdx + overhead d
      ≤ MAX_MEASUREMENT_SIZE + 1 := by
  have h := runAdds_preserves_bound ops (resetMeasurement d) (by
    show 0 + overhead d ≤ 23
    unfold overhead ENCRYPTION_ADDITIONAL_BYTES
    split <;> omega)
  rw [runAdds_preserves_overhead] at h
  exact h

/-- C3 (counterexample): three accepted typed adds of widths 8, 8 and 4 on the empty buffer
of an unencrypted device leave the consumed-byte counter at 23, above 22. -/
theorem consumed_reaches_23 :
    ¬ ((runAdds [AddOp.unsignedInteger ⟨1, 8⟩ 5, AddOp.unsignedInteger ⟨2, 8⟩ 5,
          AddOp.unsignedInteger ⟨3, 4⟩ 5] (resetMeasurement plainDevice))._sensorDataIdx
        + overhead plainDevice ≤ 22) := by
  decide

theorem plainAfterRaw254_eq (K : Definitions) (sn cn : List Nat) (t : Bool) :
    plainAfterRaw254 K sn cn t =
      { BaseDevice.create K sn cn t with
          _sensorData := [0x54 :: 254 :: raw254], _sensorDataIdx := 0 } := by
  unfold plainAfterRaw254
  rw [addRaw_254_create]

/-- C4 (evaluation at the failing input): after the accepted `addRaw` of length 254 the
buffer holds one entry of 256 bytes, and `getMeasurementByteArray` returns only its first 31
bytes, which are also the bytes after the indicator byte of the frame: the entry is
truncated. -/
theorem addRaw_254_entry_truncated (K : Definitions) (C : Ccm) (S : StdSort)
    (sn cn : List Nat) (t : Bool) :
    (plainAfterRaw254 K sn cn t)._sensorData = [0x54 :: 254 :: raw254] ∧
      (0x54 :: 254 :: raw254).length = 256 ∧
      (getMeasurementByteArray S (plainAfterRaw254 K sn cn t)).1
        = (0x54 :: 254 :: raw254).take 31 ∧
      (getMeasurementByteArray S (plainAfterRaw254 K sn cn t)).1.length = 31 ∧
      (getAdvertisementData K C S (plainAfterRaw254 K sn cn t)).1.drop 8
        = (0x54 :: 254 :: raw254).take 31 := by
  have hlen : ((0x54 :: 254 :: raw254).take 31).length = 31 := by
    simp [raw254_length]
  have hflat : (getMeasurementByteArray S (plainAfterRaw254 K sn cn t)).1
      = (0x54 :: 254 :: raw254).take 31 := by
    rw [plainAfterRaw254_eq]
    exact flatten_raw254_entry S
  refine ⟨by rw [plainAfterRaw254_eq], by simp [raw254_length], hflat, by rw [hflat, hlen], ?_⟩
  rw [getAdvertisementData_frame, plainAfterRaw254_eq]
  simp only []
  rw [payload_unencrypted _ _ _ _ rfl, flatten_raw254_entry]
  rw [appendShortName_eq_self, appendCompleteName_eq_self]
  · simp
  · simp [raw254_length]
  · rw [appendCompleteName_eq_self] <;> simp [raw254_length]

theorem valueBytes_length (v n : Nat) : (valueBytes v n).length = n := by
  simp [valueBytes]

theorem AddOp.entry_length (a : AddOp) : a.entry.length = a.required := by
  cases a <;>
    simp [AddOp.entry, AddOp.required, valueBytes_length, TYPE_INDICATOR_SIZE,
      RAW_HEADER_BYTE_SIZE]

theorem runAdds_cons (a : AddOp) (ops : List AddOp) (d : BaseDevice) :
    runAdds (a :: ops) d = runAdds ops (a.apply d).2 := rfl

theorem add_sensorData (a : AddOp) (d : BaseDevice) :
    (a.apply d).2._sensorData =
      if (a.apply d).1 then d._sensorData ++ [a.entry] else d._sensorData := by
  rw [AddOp.apply_eq]
  split <;> simp

/-- The buffer after a sequence of add operations: the entries it held before, followed by
the entries of the accepted operations in call order. Nothing else is added, and nothing is
removed. -/
theorem runAdds_sensorData (ops : List AddOp) (d : BaseDevice) :
    (runAdds ops d)._sensorData = d._sensorData ++ acceptedEntries ops d := by
  induction ops generalizing d with
  | nil => simp [runAdds, acceptedEntries]
  | cons a ops ih =>
    rw [runAdds_cons, ih, add_sensorData, acceptedEntries]
    split <;> simp

theorem add_preserves_stored (a : AddOp) (d : BaseDevice) (hreq : a.required < 256)
    (hb : d._sensorDataIdx + overhead d ≤ 23) (hs : storedBytes d = d._sensorDataIdx) :
    storedBytes (a.apply d).2 = (a.apply d).2._sensorDataIdx := by
  rw [AddOp.apply_eq]
  by_cases hsp : hasEnoughSpace a.required d = true
  · rw [if_pos hsp]
    have h := (hasEnoughSpace_iff a.required d (by omega)).mp hsp
    rw [Nat.mod_eq_of_lt hreq] at h
    show ((d._sensorData ++ [a.entry]).map List.length).sum = (d._sensorDataIdx + a.required) % 256
    unfold storedBytes at hs
    rw [List.map_append, List.sum_append, hs]
    simp [AddOp.entry_length]
    omega
  · rw [if_neg hsp]
    exact hs

/-- As long as every required size fits a byte, the consumed-byte counter is the number of
bytes held in the entries. -/
theorem runAdds_stored_eq_counter (ops : List AddOp) (d : BaseDevice)
    (hreq : ∀ a ∈ ops, a.required < 256)
    (hb : d._sensorDataIdx + overhead d ≤ 23) (hs : storedBytes d = d._sensorDataIdx) :
    storedBytes (runAdds ops d) = (runAdds ops d)._sensorDataIdx := by
  induction ops generalizing d with
  | nil => exact hs
  | cons a ops ih =>
    rw [runAdds_cons]
    exact ih _ (fun b hbm => hreq b (List.mem_cons_of_mem a hbm))
      (add_preserves_bound a d hb)
      (add_preserves_stored a d (hreq a (List.mem_cons_self a ops)) hb hs)

theorem StdSort.storedBytes_sort (S : StdSort) (l : List (List Nat)) :
    ((S.sort l).map List.length).sum = (l.map List.length).sum :=
  ((S.perm l).map List.length).sum_eq

theorem StdSort.heads_sorted (S : StdSort) (l : List (List Nat)) :
    (S.sort l).Pairwise (fun a b => a.headD 0 ≤ b.headD 0) :=
  (S.sorted l).imp (fun h => by simpa [entryLess] using h)

/-- The sorted sensor data, away from the `uint8_t` narrowing: after add operations whose
required sizes fit a byte, applied to an empty buffer, `getMeasurementByteArray` returns the
concatenation of a rearrangement of exactly the accepted entries, each whole, with leading
sensor ids in non-decreasing order. -/
theorem measurement_bytes_sorted_concat (S : StdSort) (ops : List AddOp) (d : BaseDevice)
    (hreq : ∀ a ∈ ops, a.required < 256) :
    (getMeasurementByteArray S (runAdds ops (resetMeasurement d))).1
        = (S.sort (acceptedEntries ops (resetMeasurement d))).flatten ∧
      (S.sort (acceptedEntries ops (resetMeasurement d))).Perm
        (acceptedEntries ops (resetMeasurement d)) ∧
      (S.sort (acceptedEntries ops (resetMeasurement d))).Pairwise
        (fun a b => a.headD 0 ≤ b.headD 0) := by
  refine ⟨?_, S.perm _, S.heads_sorted _⟩
  have hb : (resetMeasurement d)._sensorDataIdx + overhead (resetMeasurement d) ≤ 23 := by
    show 0 + overhead d ≤ 23
    unfold overhead ENCRYPTION_ADDITIONAL_BYTES
    split <;> omega
  have hs := runAdds_stored_eq_counter ops (resetMeasurement d) hreq hb rfl
  have hb2 := runAdds_preserves_bound ops (resetMeasurement d) hb
  have hdata : (runAdds ops (resetMeasurement d))._sensorData
      = acceptedEntries ops (resetMeasurement d) := by
    rw [runAdds_sensorData]
    rfl
  unfold getMeasurementByteArray
  simp only []
  rw [flattenEntries_eq]
  have hlen : (S.sort (runAdds ops (resetMeasurement d))._sensorData).flatten.length ≤ 31 := by
    rw [List.length_flatten, S.storedBytes_sort]
    unfold storedBytes at hs
    rw [hs]
    omega
  rw [List.take_of_length_le (by unfold MAX_ADVERTISEMENT_SIZE; exact hlen), hdata]

theorem decodeCounter_counterBytes (c : Nat) (h : c < 2 ^ 32) :
    decodeCounter (counterBytes c) = c := by
  simp only [decodeCounter, counterBytes, List.getD_cons_zero, List.getD_cons_succ]
  omega

theorem buildNonce_eq (K : Definitions) (d : BaseDevice) :
    buildNonce K d =
      [d._macAddress.getD 5 0, d._macAddress.getD 4 0, d._macAddress.getD 3 0,
       d._macAddress.getD 2 0, d._macAddress.getD 1 0, d._macAddress.getD 0 0,
       K.UUID1, K.UUID2, K.FLAG_VERSION ||| K.FLAG_ENCRYPT] ++ counterBytes d._counter := rfl

/-- The payload of an encrypted frame: the copied ciphertext bytes, the four counter bytes
that were placed in the nonce, the four tag bytes. -/
theorem payload_encrypted (K : Definitions) (C : Ccm) (d : BaseDevice) (sb : List Nat)
    (h : d._useEncryption = true) :
    payload K C d sb =
      (List.range d._sensorDataIdx).map
          (fun i => (C.encryptAndTag (ccmInput K d sb)).1.getD i 0)
        ++ counterBytes d._counter
        ++ [(C.encryptAndTag (ccmInput K d sb)).2.getD 0 0,
            (C.encryptAndTag (ccmInput K d sb)).2.getD 1 0,
            (C.encryptAndTag (ccmInput K d sb)).2.getD 2 0,
            (C.encryptAndTag (ccmInput K d sb)).2.getD 3 0] := by
  unfold payload
  rw [if_pos h]
  rfl

theorem appendCompleteName_extends (K : Definitions) (d : BaseDevice) (buffer : List Nat) :
    ∃ t, appendCompleteName K d buffer = buffer ++ t := by
  unfold appendCompleteName
  simp only
  split
  · exact ⟨_, List.append_assoc _ _ _⟩
  · exact ⟨[], (List.append_nil _).symm⟩

theorem appendShortName_extends (K : Definitions) (d : BaseDevice) (buffer : List Nat) :
    ∃ t, appendShortName K d buffer = buffer ++ t := by
  unfold appendShortName
  simp only
  split
  · exact ⟨_, List.append_assoc _ _ _⟩
  · exact ⟨[], (List.append_nil _).symm⟩

/-- The name fields come after everything else: the frame is the flag bytes, the length
byte and the service data, followed by some tail. -/
theorem names_extend (K : Definitions) (d : BaseDevice) (buffer : List Nat) :
    ∃ t, appendShortName K d (appendCompleteName K d buffer) = buffer ++ t := by
  obtain ⟨t1, h1⟩ := appendCompleteName_extends K d buffer
  obtain ⟨t2, h2⟩ := appendShortName_extends K d (appendCompleteName K d buffer)
  exact ⟨t1 ++ t2, by rw [h2, h1, List.append_assoc]⟩

/-- Byte 7 of every frame is the indicator byte. -/
theorem frame_byte_7 (K : Definitions) (C : Ccm) (S : StdSort) (d : BaseDevice) :
    (getAdvertisementData K C S d).1[7]? = some (indicatorByte K d) := by
  rw [getAdvertisementData_frame]
  obtain ⟨t, ht⟩ := names_extend K d
    ([K.FLAG1, K.FLAG2, K.FLAG3,
        ((payload K C (getMeasurementByteArray S d).2
          (flattenEntries (S.sort d._sensorData))).length + 4) % 256,
        K.SERVICE_DATA, K.UUID1, K.UUID2, indicatorByte K d]
      ++ payload K C (getMeasurementByteArray S d).2 (flattenEntries (S.sort d._sensorData)))
  rw [ht]
  simp

theorem emittedCounterBytes_eq (K : Definitions) (C : Ccm) (S : StdSort) (d : BaseDevice)
    (h : d._useEncryption = true) :
    emittedCounterBytes d (getAdvertisementData K C S d).1 = counterBytes d._counter := by
  rw [getAdvertisementData_frame]
  obtain ⟨t, ht⟩ := names_extend K d
    ([K.FLAG1, K.FLAG2, K.FLAG3,
        ((payload K C (getMeasurementByteArray S d).2
          (flattenEntries (S.sort d._sensorData))).length + 4) % 256,
        K.SERVICE_DATA, K.UUID1, K.UUID2, indicatorByte K d]
      ++ payload K C (getMeasurementByteArray S d).2 (flattenEntries (S.sort d._sensorData)))
  rw [ht, payload_encrypted K C _ _ (by exact h)]
  unfold emittedCounterBytes
  have hidx : (getMeasurementByteArray S d).2._sensorDataIdx = d._sensorDataIdx := rfl
  have hc : (getMeasurementByteArray S d).2._counter = d._counter := rfl
  rw [hidx, hc]
  generalize (getMeasurementByteArray S d).2 = d1
  simp only [List.cons_append, List.nil_append, List.append_assoc]
  rw [show 8 + d._sensorDataIdx = d._sensorDataIdx + 8 from Nat.add_comm _ _]
  simp only [List.drop_succ_cons]
  rw [List.drop_append_of_le_length (by simp), List.drop_of_length_le (by simp)]
  simp [counterBytes]

theorem add_preserves_counter (a : AddOp) (d : BaseDevice) :
    (a.apply d).2._counter = d._counter := by
  rw [AddOp.apply_eq]
  split <;> rfl

theorem add_preserves_useEncryption (a : AddOp) (d : BaseDevice) :
    (a.apply d).2._useEncryption = d._useEncryption := by
  rw [AddOp.apply_eq]
  split <;> rfl

theorem add_preserves_macAddress (a : AddOp) (d : BaseDevice) :
    (a.apply d).2._macAddress = d._macAddress := by
  rw [AddOp.apply_eq]
  split <;> rfl

theorem getAdvertisementData_counter (K : Definitions) (C : Ccm) (S : StdSort)
    (d : BaseDevice) :
    (getAdvertisementData K C S d).2._counter =
      if d._useEncryption then (d._counter + 1) % 2 ^ 32 else d._counter := by
  unfold getAdvertisementData getMeasurementByteArray
  simp only []
  cases d._useEncryption <;> rfl

theorem getAdvertisementData_useEncryption (K : Definitions) (C : Ccm) (S : StdSort)
    (d : BaseDevice) :
    (getAdvertisementData K C S d).2._useEncryption = d._useEncryption := by
  unfold getAdvertisementData getMeasurementByteArray
  simp only []
  cases d._useEncryption <;> rfl

theorem getAdvertisementData_macAddress (K : Definitions) (C : Ccm) (S : StdSort)
    (d : BaseDevice) :
    (getAdvertisementData K C S d).2._macAddress = d._macAddress := by
  unfold getAdvertisementData getMeasurementByteArray
  simp only []
  cases d._useEncryption <;> rfl

theorem range_succ_map_shift (n c : Nat) :
    (List.range (n + 1)).map (fun k => (c + k) % 2 ^ 32)
      = c % 2 ^ 32 :: (List.range n).map (fun k => ((c + 1) % 2 ^ 32 + k) % 2 ^ 32) := by
  rw [List.range_succ_eq_map, List.map_cons, List.map_map]
  congr 1
  apply List.map_congr_left
  intro k _
  simp only [Function.comp, Nat.succ_eq_add_one]
  omega

/-- The counter values with which an encryption-enabled device enters its successive calls of
`getAdvertisementData`: the `k`-th call sees the counter it started from plus `k`, modulo
`2 ^ 32`, whatever add and reset calls come in between. -/
theorem trace_counters (K : Definitions) (C : Ccm) (S : StdSort) (ops : List Op)
    (d : BaseDevice) (henc : d._useEncryption = true) (hc : d._counter < 2 ^ 32) :
    (trace K C S ops d).map (fun e => e.1._counter)
      = (List.range (trace K C S ops d).length).map (fun k => (d._counter + k) % 2 ^ 32) := by
  induction ops generalizing d with
  | nil => simp [trace]
  | cons op ops ih =>
    cases op with
    | add a =>
      have := ih (a.apply d).2 (by rw [add_preserves_useEncryption]; exact henc)
        (by rw [add_preserves_counter]; exact hc)
      rw [add_preserves_counter] at this
      exact this
    | reset => exact ih (resetMeasurement d) henc hc
    | advertise =>
      have hnext : (getAdvertisementData K C S d).2._counter = (d._counter + 1) % 2 ^ 32 := by
        rw [getAdvertisementData_counter, henc]
        rfl
      have := ih (getAdvertisementData K C S d).2
        (by rw [getAdvertisementData_useEncryption]; exact henc)
        (by rw [hnext]; exact Nat.mod_lt _ (by norm_num))
      simp only [trace, List.map_cons, List.length_cons]
      rw [range_succ_map_shift, this, hnext, Nat.mod_eq_of_lt hc]

/-- Every recorded call is a call of `getAdvertisementData` in a state with the identity
(encryption flag, hardware address) and a counter below `2 ^ 32` of the device it started
from. -/
theorem trace_entries (K : Definitions) (C : Ccm) (S : StdSort) (ops : List Op)
    (d : BaseDevice) (hc : d._counter < 2 ^ 32) :
    ∀ e ∈ trace K C S ops d,
      e.2.1 = (getAdvertisementData K C S e.1).1 ∧
      e.2.2 = (getAdvertisementData K C S e.1).2 ∧
      e.1._useEncryption = d._useEncryption ∧
      e.1._macAddress = d._macAddress ∧
      e.1._counter < 2 ^ 32 := by
  induction ops generalizing d with
  | nil => simp [trace]
  | cons op ops ih =>
    cases op with
    | add a =>
      intro e he
      have := ih (a.apply d).2 (by rw [add_preserves_counter]; exact hc) e he
      rw [add_preserves_useEncryption, add_preserves_macAddress] at this
      exact this
    | reset =>
      intro e he
      exact ih (resetMeasurement d) hc e he
    | advertise =>
      intro e he
      simp only [trace, List.mem_cons] at he
      rcases he with rfl | he
      · exact ⟨rfl, rfl, rfl, rfl, hc⟩
      · have := ih (getAdvertisementData K C S d).2 (by
          rw [getAdvertisementData_counter]
          split
          · exact Nat.mod_lt _ (by norm_num)
          · exact hc) e he
        rw [getAdvertisementData_useEncryption, getAdvertisementData_macAddress] at this
        exact this

theorem createEncrypted_counter (K : Definitions) (sn cn : List Nat) (t : Bool)
    (key mac : List Nat) (c : Nat) :
    (BaseDevice.createEncrypted K sn cn t key mac c)._counter = c % 2 ^ 32 := rfl

theorem createEncrypted_useEncryption (K : Definitions) (sn cn : List Nat) (t : Bool)
    (key mac : List Nat) (c : Nat) :
    (BaseDevice.createEncrypted K sn cn t key mac c)._useEncryption = true := rfl

/-- C5 (as amended): the message counter changes only when an encrypted frame is produced,
and then by one modulo `2 ^ 32`. For a device constructed with encryption and initial counter
`c`, with add operations and `resetMeasurement` calls interleaved at will, the four counter
bytes of the `k`-th frame produced (counting from 0) encode `(c + k) % 2 ^ 32`: the first
frame carries `c`, each later frame one more than the frame before it, except that a frame
carrying `0xFFFFFFFF` is followed by a frame carrying 0. Add operations and
`resetMeasurement` leave the counter as it is, and so does `getAdvertisementData` on a
device without encryption. -/
theorem emitted_counters_advance_mod (K : Definitions) (C : Ccm) (S : StdSort)
    (sn cn : List Nat) (t : Bool) (key mac : List Nat) (c : Nat) (ops : List Op) :
    (trace K C S ops (BaseDevice.createEncrypted K sn cn t key mac c)).map
        (fun e => decodeCounter (emittedCounterBytes e.1 e.2.1))
      = (List.range (trace K C S ops
            (BaseDevice.createEncrypted K sn cn t key mac c)).length).map
          (fun k => (c + k) % 2 ^ 32) ∧
      (∀ (a : AddOp) (d : BaseDevice), (a.apply d).2._counter = d._counter) ∧
      (∀ d : BaseDevice, (resetMeasurement d)._counter = d._counter) ∧
      (∀ d : BaseDevice, (getAdvertisementData K C S d).2._counter =
        if d._useEncryption then (d._counter + 1) % 2 ^ 32 else d._counter) := by
  refine ⟨?_, add_preserves_counter, fun _ => rfl, getAdvertisementData_counter K C S⟩
  have hc : (BaseDevice.createEncrypted K sn cn t key mac c)._counter < 2 ^ 32 :=
    Nat.mod_lt _ (by norm_num)
  have hcnt := trace_counters K C S ops _ (createEncrypted_useEncryption K sn cn t key mac c) hc
  have hent := trace_entries K C S ops _ hc
  have hmap : (trace K C S ops (BaseDevice.createEncrypted K sn cn t key mac c)).map
        (fun e => decodeCounter (emittedCounterBytes e.1 e.2.1))
      = (trace K C S ops (BaseDevice.createEncrypted K sn cn t key mac c)).map
        (fun e => e.1._counter) := by
    apply List.map_congr_left
    intro e he
    obtain ⟨h1, _, h3, _, h5⟩ := hent e he
    rw [h1, emittedCounterBytes_eq K C S e.1 (by rw [h3]; rfl), decodeCounter_counterBytes _ h5]
  rw [hmap, hcnt, createEncrypted_counter]
  apply List.map_congr_left
  intro k _
  simp only [Nat.mod_add_mod]

/-- C5 (counterexample): an encrypted device constructed with counter `0xFFFFFFFF` and asked
for two frames in a row emits the counter values `0xFFFFFFFF` and then `0`; the second is not
one greater than the first. -/
theorem emitted_counter_wraps :
    (trace bthomeDefinitions sampleCcm insertionStdSort [Op.advertise, Op.advertise]
        (encryptedDevice false 0xFFFFFFFF)).map
        (fun e => decodeCounter (emittedCounterBytes e.1 e.2.1)) = [0xFFFFFFFF, 0] ∧
      (0 : Nat) ≠ 0xFFFFFFFF + 1 := by
  decide

theorem counterBytes_injective (a b : Nat) (ha : a < 2 ^ 32) (hb : b < 2 ^ 32)
    (h : counterBytes a = counterBytes b) : a = b := by
  rw [← decodeCounter_counterBytes a ha, ← decodeCounter_counterBytes b hb, h]

theorem buildNonce_injective (K : Definitions) (d e : BaseDevice)
    (ha : d._counter < 2 ^ 32) (hb : e._counter < 2 ^ 32)
    (h : buildNonce K d = buildNonce K e) : d._counter = e._counter := by
  rw [buildNonce_eq, buildNonce_eq] at h
  have h9 := congrArg (List.drop 9) h
  simp only [List.cons_append, List.nil_append, List.drop_succ_cons, List.drop_zero] at h9
  exact counterBytes_injective _ _ ha hb h9

theorem trace_counter_mem (K : Definitions) (C : Ccm) (S : StdSort) (ops : List Op)
    (d : BaseDevice) (henc : d._useEncryption = true) (hc : d._counter < 2 ^ 32)
    (e : BaseDevice × List Nat × BaseDevice) (he : e ∈ trace K C S ops d) :
    ∃ k, k < (trace K C S ops d).length ∧ e.1._counter = (d._counter + k) % 2 ^ 32 := by
  have hmem : e.1._counter ∈ (trace K C S ops d).map (fun e => e.1._counter) :=
    List.mem_map_of_mem _ he
  rw [trace_counters K C S ops d henc hc, List.mem_map] at hmem
  obtain ⟨k, hk, hk2⟩ := hmem
  exact ⟨k, List.mem_range.mp hk, hk2.symm⟩

/-- C6 (as amended): as long as the counter does not reach the end of its 32-bit range, it
is strictly increasing and no nonce is used twice. For a device constructed with encryption
and initial counter `c`, and any sequence of calls in which `getAdvertisementData` is called
`N` times with `c + N < 2 ^ 32`: after each of these calls the stored counter is the value the
call used plus one, hence strictly greater, and the nonces of the `N` calls are pairwise
different. A call made with the counter at `0xFFFFFFFF` stores the counter 0: the device
goes on producing frames. -/
theorem nonces_distinct_before_wrap (K : Definitions) (C : Ccm) (S : StdSort)
    (sn cn : List Nat) (t : Bool) (key mac : List Nat) (c : Nat) (ops : List Op)
    (h : c + (trace K C S ops (BaseDevice.createEncrypted K sn cn t key mac c)).length
      < 2 ^ 32) :
    (∀ e ∈ trace K C S ops (BaseDevice.createEncrypted K sn cn t key mac c),
        e.2.2._counter = e.1._counter + 1 ∧ e.1._counter < e.2.2._counter) ∧
      ((trace K C S ops (BaseDevice.createEncrypted K sn cn t key mac c)).map
        (fun e => buildNonce K e.1)).Nodup ∧
      (∀ d : BaseDevice,
        (getAdvertisementData K C S
          { d with _useEncryption := true, _counter := 2 ^ 32 - 1 }).2._counter = 0) := by
  have hc0 : (BaseDevice.createEncrypted K sn cn t key mac c)._counter = c := by
    rw [createEncrypted_counter]
    exact Nat.mod_eq_of_lt (by omega)
  have hc : (BaseDevice.createEncrypted K sn cn t key mac c)._counter < 2 ^ 32 := by
    rw [hc0]
    omega
  have henc := createEncrypted_useEncryption K sn cn t key mac c
  have hent := trace_entries K C S ops _ hc
  have hval : ∀ e ∈ trace K C S ops (BaseDevice.createEncrypted K sn cn t key mac c),
      ∃ k, k < (trace K C S ops (BaseDevice.createEncrypted K sn cn t key mac c)).length ∧
        e.1._counter = c + k := by
    intro e he
    obtain ⟨k, hk, hk2⟩ := trace_counter_mem K C S ops _ henc hc e he
    rw [hc0] at hk2
    exact ⟨k, hk, by rw [hk2]; exact Nat.mod_eq_of_lt (by omega)⟩
  refine ⟨?_, ?_, fun d => by rw [getAdvertisementData_counter]; simp⟩
  · intro e he
    obtain ⟨_, h2, h3, _, _⟩ := hent e he
    obtain ⟨k, hk, hk2⟩ := hval e he
    have hnext : e.2.2._counter = (e.1._counter + 1) % 2 ^ 32 := by
      rw [h2, getAdvertisementData_counter, h3, henc]
      rfl
    rw [hnext, Nat.mod_eq_of_lt (by omega)]
    exact ⟨rfl, Nat.lt_succ_self _⟩
  · have hcnt := trace_counters K C S ops _ henc hc
    have hnd : ((trace K C S ops (BaseDevice.createEncrypted K sn cn t key mac c)).map
        (fun e => e.1._counter)).Nodup := by
      rw [hcnt]
      apply List.Nodup.map_on _ (List.nodup_range _)
      intro x hx y hy hxy
      rw [List.mem_range] at hx hy
      rw [hc0, Nat.mod_eq_of_lt (by omega), Nat.mod_eq_of_lt (by omega)] at hxy
      omega
    have hnd2 := List.Nodup.of_map _ hnd
    apply List.Nodup.map_on _ hnd2
    intro x hx y hy hxy
    have hcx := buildNonce_injective K x.1 y.1 (hent x hx).2.2.2.2 (hent y hy).2.2.2.2 hxy
    exact (List.nodup_map_iff_inj_on hnd2).mp hnd x hx y hy hcx

theorem trace_replicate_length (K : Definitions) (C : Ccm) (S : StdSort) (n : Nat)
    (d : BaseDevice) : (trace K C S (List.replicate n Op.advertise) d).length = n := by
  induction n generalizing d with
  | zero => rfl
  | succ n ih =>
    rw [List.replicate_succ]
    simp only [trace, List.length_cons]
    rw [ih]

/-- C6 (counterexample): with the counter at `0xFFFFFFFF` a call of `getAdvertisementData`
stores the counter 0, which is not greater than the value the call used; and a device that
is asked for `2 ^ 32 + 1` frames does produce them and uses a nonce twice. -/
theorem counter_wraps_and_nonce_repeats :
    ¬ ((encryptedDevice false 0xFFFFFFFF)._counter <
        (getAdvertisementData bthomeDefinitions sampleCcm insertionStdSort
          (encryptedDevice false 0xFFFFFFFF)).2._counter) ∧
      ¬ ((trace bthomeDefinitions sampleCcm insertionStdSort
            (List.replicate (2 ^ 32 + 1) Op.advertise) (encryptedDevice false 0)).map
          (fun e => buildNonce bthomeDefinitions e.1)).Nodup := by
  constructor
  · decide
  · intro hnd
    have hc : (encryptedDevice false 0)._counter < 2 ^ 32 := by decide
    have hcnt := trace_counters bthomeDefinitions sampleCcm insertionStdSort
      (List.replicate (2 ^ 32 + 1) Op.advertise) (encryptedDevice false 0) rfl hc
    have hent := trace_entries bthomeDefinitions sampleCcm insertionStdSort
      (List.replicate (2 ^ 32 + 1) Op.advertise) (encryptedDevice false 0) hc
    rw [trace_replicate_length] at hcnt
    have hmap : (trace bthomeDefinitions sampleCcm insertionStdSort
          (List.replicate (2 ^ 32 + 1) Op.advertise) (encryptedDevice false 0)).map
          (fun e => buildNonce bthomeDefinitions e.1)
        = (List.range (2 ^ 32 + 1)).map
          (fun k => buildNonce bthomeDefinitions
            { encryptedDevice false 0 with _counter := k % 2 ^ 32 }) := by
      have h1 : (trace bthomeDefinitions sampleCcm insertionStdSort
            (List.replicate (2 ^ 32 + 1) Op.advertise) (encryptedDevice false 0)).map
            (fun e => buildNonce bthomeDefinitions e.1)
          = ((trace bthomeDefinitions sampleCcm insertionStdSort
            (List.replicate (2 ^ 32 + 1) Op.advertise) (encryptedDevice false 0)).map
            (fun e => e.1._counter)).map
            (fun c => buildNonce bthomeDefinitions
              { encryptedDevice false 0 with _counter := c }) := by
        rw [List.map_map]
        apply List.map_congr_left
        intro e he
        obtain ⟨_, _, _, hmac, _⟩ := hent e he
        simp only [Function.comp, buildNonce_eq, hmac]
      rw [h1, hcnt, List.map_map]
      apply List.map_congr_left
      intro k _
      show buildNonce bthomeDefinitions
          { encryptedDevice false 0 with
            _counter := ((encryptedDevice false 0)._counter + k) % 2 ^ 32 } = _
      have h0 : (encryptedDevice false 0)._counter = 0 := by decide
      rw [h0, Nat.zero_add]
    rw [hmap] at hnd
    have hinj := List.inj_on_of_nodup_map hnd
      (List.mem_range.mpr (show 0 < 2 ^ 32 + 1 by norm_num))
      (List.mem_range.mpr (show 2 ^ 32 < 2 ^ 32 + 1 by norm_num))
      (by simp only [Nat.zero_mod, Nat.mod_self])
    exact absurd hinj (by norm_num)

/-- C6 (witness): a device constructed with counter 5 and taken through `sampleCalls`. -/
theorem nonces_distinct_before_wrap_witness :
    5 + (trace bthomeDefinitions sampleCcm insertionStdSort sampleCalls
          (encryptedDevice false 5)).length < 2 ^ 32 ∧
      ((∀ e ∈ trace bthomeDefinitions sampleCcm insertionStdSort sampleCalls
            (encryptedDevice false 5),
          e.2.2._counter = e.1._counter + 1 ∧ e.1._counter < e.2.2._counter) ∧
        ((trace bthomeDefinitions sampleCcm insertionStdSort sampleCalls
            (encryptedDevice false 5)).map
          (fun e => buildNonce bthomeDefinitions e.1)).Nodup) :=
  ⟨by decide,
    (nonces_distinct_before_wrap bthomeDefinitions sampleCcm insertionStdSort nameT1
      nameTempSensor1 false (List.replicate 16 0x11) [0xA1, 0xA2, 0xA3, 0xA4, 0xA5, 0xA6] 5
      sampleCalls (by decide)).1,
    (nonces_distinct_before_wrap bthomeDefinitions sampleCcm insertionStdSort nameT1
      nameTempSensor1 false (List.replicate 16 0x11) [0xA1, 0xA2, 0xA3, 0xA4, 0xA5, 0xA6] 5
      sampleCalls (by decide)).2.1⟩

/-- The nonce and the associated data handed to the primitive, for every device state: the
reversed hardware address, `UUID1`, `UUID2`, the constant `FLAG_VERSION | FLAG_ENCRYPT`, the
four little-endian counter bytes; no associated data. The ninth byte is the indicator byte
of the frame when the device is not trigger based. -/
theorem ccmInput_nonce (K : Definitions) (d : BaseDevice) (sb : List Nat) :
    (ccmInput K d sb).nonce =
        [d._macAddress.getD 5 0, d._macAddress.getD 4 0, d._macAddress.getD 3 0,
         d._macAddress.getD 2 0, d._macAddress.getD 1 0, d._macAddress.getD 0 0,
         K.UUID1, K.UUID2, K.FLAG_VERSION ||| K.FLAG_ENCRYPT,
         d._counter % 256, d._counter / 2 ^ 8 % 256, d._counter / 2 ^ 16 % 256,
         d._counter / 2 ^ 24 % 256] ∧
      (ccmInput K d sb).associatedData = [] ∧
      indicatorByte K { d with _triggerDevice := false, _useEncryption := true }
        = K.FLAG_VERSION ||| K.FLAG_ENCRYPT :=
  ⟨rfl, rfl, rfl⟩

/-- C7 (evaluation at the failing input): for every device constructed with encryption and
as trigger based, byte 8 of the nonce handed to the primitive is the constant
`FLAG_VERSION | FLAG_ENCRYPT`, while the indicator byte emitted as byte 7 of the frame is
`FLAG_VERSION | FLAG_TRIGGER | FLAG_ENCRYPT`; with the BTHome flag values these are `0x41`
and `0x45`. -/
theorem trigger_nonce_lacks_trigger_flag (K : Definitions) (C : Ccm) (S : StdSort)
    (sn cn key mac : List Nat) (c : Nat) :
    (ccmInput K (BaseDevice.createEncrypted K sn cn true key mac c)
        (getMeasurementByteArray S
          (BaseDevice.createEncrypted K sn cn true key mac c)).1).nonce[8]?
        = some (K.FLAG_VERSION ||| K.FLAG_ENCRYPT) ∧
      (getAdvertisementData K C S (BaseDevice.createEncrypted K sn cn true key mac c)).1[7]?
        = some ((K.FLAG_VERSION ||| K.FLAG_TRIGGER) ||| K.FLAG_ENCRYPT) ∧
      (ccmInput bthomeDefinitions (encryptedDevice true 1)
        (getMeasurementByteArray insertionStdSort (encryptedDevice true 1)).1).nonce[8]?
        = some 0x41 ∧
      (getAdvertisementData bthomeDefinitions sampleCcm insertionStdSort
        (encryptedDevice true 1)).1[7]? = some 0x45 := by
  refine ⟨rfl, ?_, by decide, by decide⟩
  rw [frame_byte_7]
  rfl

set_option maxRecDepth 100000 in
theorem encryptedAfterRaw254_eq :
    (addRaw 0x54 raw254 254 (encryptedDevice false 7)).1 = true ∧
    encryptedAfterRaw254 =
      { encryptedDevice false 7 with
          _sensorData := [0x54 :: 254 :: raw254], _sensorDataIdx := 0 } := by
  decide

/-- C8 (evaluation at the failing input): on an encrypted device the `addRaw` of length 254
returns `true` and leaves 256 bytes in the buffer, of which 31 are handed to the primitive;
whatever ciphertext the primitive returns, the frame carries none of it: its length byte is
12 and the indicator byte is followed at once by the four counter bytes. -/
theorem addRaw_254_encrypted_frame_drops_ciphertext (C : Ccm) (S : StdSort) :
    (addRaw 0x54 raw254 254 (encryptedDevice false 7)).1 = true ∧
      storedBytes encryptedAfterRaw254 = 256 ∧
      (ccmInput bthomeDefinitions encryptedAfterRaw254
        (getMeasurementByteArray S encryptedAfterRaw254).1).plaintext.length = 31 ∧
      (getAdvertisementData bthomeDefinitions C S encryptedAfterRaw254).1.take 12
        = [0x02, 0x01, 0x06, 12, 0x16, 0xD2, 0xFC, 0x41, 7, 0, 0, 0] := by
  obtain ⟨hacc, heq⟩ := encryptedAfterRaw254_eq
  refine ⟨hacc, ?_, ?_, ?_⟩
  · rw [heq]
    simp [storedBytes, raw254_length]
  · rw [heq]
    show (flattenEntries (S.sort [0x54 :: 254 :: raw254])).length = 31
    rw [flatten_raw254_entry]
    simp [raw254_length]
  · rw [getAdvertisementData_frame]
    obtain ⟨t, ht⟩ := names_extend bthomeDefinitions encryptedAfterRaw254
      ([bthomeDefinitions.FLAG1, bthomeDefinitions.FLAG2, bthomeDefinitions.FLAG3,
          ((payload bthomeDefinitions C (getMeasurementByteArray S encryptedAfterRaw254).2
            (flattenEntries (S.sort encryptedAfterRaw254._sensorData))).length + 4) % 256,
          bthomeDefinitions.SERVICE_DATA, bthomeDefinitions.UUID1, bthomeDefinitions.UUID2,
          indicatorByte bthomeDefinitions encryptedAfterRaw254]
        ++ payload bthomeDefinitions C (getMeasurementByteArray S encryptedAfterRaw254).2
          (flattenEntries (S.sort encryptedAfterRaw254._sensorData)))
    rw [ht, payload_encrypted _ _ _ _ (by rw [heq]; rfl)]
    have hidx : (getMeasurementByteArray S encryptedAfterRaw254).2._sensorDataIdx = 0 := by
      rw [heq]; rfl
    have hc : (getMeasurementByteArray S encryptedAfterRaw254).2._counter = 7 := by
      rw [heq]; rfl
    have hind : indicatorByte bthomeDefinitions encryptedAfterRaw254 = 0x41 := by
      rw [heq]; rfl
    rw [hidx, hc, hind]
    simp [counterBytes, bthomeDefinitions]

theorem plainAfterRaw254_frame (K : Definitions) (C : Ccm) (S : StdSort)
    (sn cn : List Nat) (t : Bool) :
    (getAdvertisementData K C S (plainAfterRaw254 K sn cn t)).1 =
      [K.FLAG1, K.FLAG2, K.FLAG3, 35, K.SERVICE_DATA, K.UUID1, K.UUID2,
        indicatorByte K (plainAfterRaw254 K sn cn t)] ++ (0x54 :: 254 :: raw254).take 31 := by
  rw [getAdvertisementData_frame, plainAfterRaw254_eq]
  simp only []
  rw [payload_unencrypted _ _ _ _ rfl, flatten_raw254_entry]
  rw [appendShortName_eq_self, appendCompleteName_eq_self]
  · simp [raw254_length]
  · simp [raw254_length]
  · rw [appendCompleteName_eq_self] <;> simp [raw254_length]

/-- C9 (evaluation at the failing input): after the accepted `addRaw` of length 254 the
buffer of an unencrypted device holds `n = 256` sensor-data bytes, but the frame has the
length byte 35 (not `4 + n`) followed by the protocol bytes, the indicator byte and only the
first 31 of the 256 bytes. -/
theorem addRaw_254_unencrypted_frame_layout (K : Definitions) (C : Ccm) (S : StdSort)
    (sn cn : List Nat) (t : Bool) :
    (addRaw 0x54 raw254 254 (BaseDevice.create K sn cn t)).1 = true ∧
      storedBytes (plainAfterRaw254 K sn cn t) = 256 ∧
      (getAdvertisementData K C S (plainAfterRaw254 K sn cn t)).1 =
        [K.FLAG1, K.FLAG2, K.FLAG3, 35, K.SERVICE_DATA, K.UUID1, K.UUID2,
          if t then K.FLAG_VERSION ||| K.FLAG_TRIGGER else K.FLAG_VERSION]
        ++ (0x54 :: 254 :: raw254).take 31 := by
  refine ⟨by rw [addRaw_254_create], ?_, ?_⟩
  · rw [plainAfterRaw254_eq]
    simp [storedBytes, raw254_length]
  · rw [plainAfterRaw254_frame, plainAfterRaw254_eq]
    rfl

theorem add_preserves_triggerDevice (a : AddOp) (d : BaseDevice) :
    (a.apply d).2._triggerDevice = d._triggerDevice := by
  rw [AddOp.apply_eq]
  split <;> rfl

theorem getAdvertisementData_triggerDevice (K : Definitions) (C : Ccm) (S : StdSort)
    (d : BaseDevice) :
    (getAdvertisementData K C S d).2._triggerDevice = d._triggerDevice := by
  unfold getAdvertisementData getMeasurementByteArray
  simp only []
  cases d._useEncryption <;> rfl

theorem step_preserves_flags (K : Definitions) (C : Ccm) (S : StdSort) (op : Op)
    (d : BaseDevice) :
    (op.step K C S d)._triggerDevice = d._triggerDevice ∧
      (op.step K C S d)._useEncryption = d._useEncryption := by
  cases op with
  | add a => exact ⟨add_preserves_triggerDevice a d, add_preserves_useEncryption a d⟩
  | reset => exact ⟨rfl, rfl⟩
  | advertise =>
    exact ⟨getAdvertisementData_triggerDevice K C S d, getAdvertisementData_useEncryption K C S d⟩

theorem runOps_preserves_flags (K : Definitions) (C : Ccm) (S : StdSort) (ops : List Op)
    (d : BaseDevice) :
    (runOps K C S ops d)._triggerDevice = d._triggerDevice ∧
      (runOps K C S ops d)._useEncryption = d._useEncryption := by
  induction ops generalizing d with
  | nil => exact ⟨rfl, rfl⟩
  | cons op ops ih =>
    have h1 := ih (op.step K C S d)
    have h2 := step_preserves_flags K C S op d
    exact ⟨h1.1.trans h2.1, h1.2.trans h2.2⟩

/-- C10: the indicator byte, byte 7 of the frame, is `FLAG_VERSION`, with `FLAG_TRIGGER` or-ed
in exactly when the device was constructed as trigger based, and with `FLAG_ENCRYPT` or-ed in
exactly when it was constructed with encryption material. This holds after any sequence of
calls, so it depends neither on the buffer contents nor on the counter. -/
theorem indicator_byte_of_frame (K : Definitions) (C : Ccm) (S : StdSort)
    (sn cn : List Nat) (t : Bool) (ops : List Op) :
    (getAdvertisementData K C S (runOps K C S ops (BaseDevice.create K sn cn t))).1[7]?
        = some (if t then K.FLAG_VERSION ||| K.FLAG_TRIGGER else K.FLAG_VERSION) ∧
      ∀ (key mac : List Nat) (c : Nat),
        (getAdvertisementData K C S
            (runOps K C S ops (BaseDevice.createEncrypted K sn cn t key mac c))).1[7]?
          = some ((if t then K.FLAG_VERSION ||| K.FLAG_TRIGGER else K.FLAG_VERSION)
              ||| K.FLAG_ENCRYPT) := by
  constructor
  · rw [frame_byte_7]
    obtain ⟨h1, h2⟩ := runOps_preserves_flags K C S ops (BaseDevice.create K sn cn t)
    unfold indicatorByte
    rw [h1, h2]
    cases t <;> rfl
  · intro key mac c
    rw [frame_byte_7]
    obtain ⟨h1, h2⟩ := runOps_preserves_flags K C S ops
      (BaseDevice.createEncrypted K sn cn t key mac c)
    unfold indicatorByte
    rw [h1, h2]
    cases t <;> rfl

theorem range_map_getD (l : List Nat) :
    (List.range l.length).map (fun i => l.getD i 0) = l := by
  apply List.ext_getElem (by simp)
  intro i h1 h2
  simp [List.getD_eq_getElem?_getD, List.getElem?_eq_getElem h2]

theorem four_getD (l : List Nat) (h : l.length = 4) :
    [l.getD 0 0, l.getD 1 0, l.getD 2 0, l.getD 3 0] = l := by
  match l, h with
  | [a, b, c, e], _ => rfl

/-- The state reached from an empty buffer by add operations whose required sizes fit a
byte: the counter is the number of stored bytes, and with the overhead it is at most 23. -/
theorem reachable_counter (ops : List AddOp) (d : BaseDevice)
    (hreq : ∀ a ∈ ops, a.required < 256) :
    storedBytes (runAdds ops (resetMeasurement d))
        = (runAdds ops (resetMeasurement d))._sensorDataIdx ∧
      (runAdds ops (resetMeasurement d))._sensorDataIdx
        + overhead (runAdds ops (resetMeasurement d)) ≤ 23 := by
  have hb : (resetMeasurement d)._sensorDataIdx + overhead (resetMeasurement d) ≤ 23 := by
    show 0 + overhead d ≤ 23
    unfold overhead ENCRYPTION_ADDITIONAL_BYTES
    split <;> omega
  exact ⟨runAdds_stored_eq_counter ops (resetMeasurement d) hreq hb rfl,
    runAdds_preserves_bound ops (resetMeasurement d) hb⟩

theorem flattenEntries_sort_length (S : StdSort) (d : BaseDevice)
    (h : storedBytes d ≤ 31) :
    flattenEntries (S.sort d._sensorData) = (S.sort d._sensorData).flatten ∧
      (flattenEntries (S.sort d._sensorData)).length = storedBytes d := by
  have hlen : (S.sort d._sensorData).flatten.length = storedBytes d := by
    rw [List.length_flatten, S.storedBytes_sort]
    rfl
  rw [flattenEntries_eq, List.take_of_length_le (by unfold MAX_ADVERTISEMENT_SIZE; omega)]
  exact ⟨rfl, hlen⟩

/-- The unencrypted frame away from the `uint8_t` narrowing: for a state `d` without
encryption whose counter equals its number of stored bytes `n <= 23`, the frame is
`FLAG1, FLAG2, FLAG3`, the length byte `4 + n`, `SERVICE_DATA, UUID1, UUID2`, the indicator
byte, the `n` sorted sensor-data bytes, and after these `8 + n` bytes the name fields. -/
theorem unencrypted_frame_layout (K : Definitions) (C : Ccm) (S : StdSort) (d : BaseDevice)
    (henc : d._useEncryption = false) (hn : storedBytes d ≤ 23) :
    ∃ names,
      (getAdvertisementData K C S d).1 =
        [K.FLAG1, K.FLAG2, K.FLAG3, 4 + storedBytes d, K.SERVICE_DATA, K.UUID1, K.UUID2,
          indicatorByte K d] ++ (S.sort d._sensorData).flatten ++ names ∧
      ((S.sort d._sensorData).flatten).length = storedBytes d := by
  obtain ⟨hflat, hlen⟩ := flattenEntries_sort_length S d (by omega)
  rw [getAdvertisementData_frame]
  obtain ⟨t, ht⟩ := names_extend K d
    ([K.FLAG1, K.FLAG2, K.FLAG3,
        ((payload K C (getMeasurementByteArray S d).2
          (flattenEntries (S.sort d._sensorData))).length + 4) % 256,
        K.SERVICE_DATA, K.UUID1, K.UUID2, indicatorByte K d]
      ++ payload K C (getMeasurementByteArray S d).2 (flattenEntries (S.sort d._sensorData)))
  refine ⟨t, ?_, by rw [← hflat]; exact hlen⟩
  rw [ht, payload_unencrypted _ _ _ _ (by exact henc), hlen, ← hflat]
  rw [Nat.mod_eq_of_lt (by omega), Nat.add_comm]

/-- The encrypted frame away from the `uint8_t` narrowing: for a state `d` with encryption
whose counter equals its number of stored bytes `n <= 15`, the frame is the three flag
bytes, the length byte `4 + n + 8`, the three protocol bytes, the indicator byte, the `n`
ciphertext bytes the primitive returns for the sorted bytes, the four little-endian bytes of
the counter before the increment, the four tag bytes, and then the name fields. -/
theorem encrypted_frame_layout (K : Definitions) (C : Ccm) (S : StdSort) (d : BaseDevice)
    (henc : d._useEncryption = true) (hidx : storedBytes d = d._sensorDataIdx)
    (hn : d._sensorDataIdx ≤ 15) :
    ∃ names,
      (getAdvertisementData K C S d).1 =
        [K.FLAG1, K.FLAG2, K.FLAG3, 4 + storedBytes d + 8, K.SERVICE_DATA, K.UUID1, K.UUID2,
          indicatorByte K d]
        ++ (C.encryptAndTag (ccmInput K d (S.sort d._sensorData).flatten)).1
        ++ counterBytes d._counter
        ++ (C.encryptAndTag (ccmInput K d (S.sort d._sensorData).flatten)).2
        ++ names ∧
      (C.encryptAndTag (ccmInput K d (S.sort d._sensorData).flatten)).1.length
        = storedBytes d := by
  obtain ⟨hflat, hlen⟩ := flattenEntries_sort_length S d (by omega)
  have hct : (C.encryptAndTag (ccmInput K d (S.sort d._sensorData).flatten)).1.length
      = storedBytes d := by
    rw [C.length_ciphertext, ← hflat]
    exact hlen
  rw [getAdvertisementData_frame]
  obtain ⟨t, ht⟩ := names_extend K d
    ([K.FLAG1, K.FLAG2, K.FLAG3,
        ((payload K C (getMeasurementByteArray S d).2
          (flattenEntries (S.sort d._sensorData))).length + 4) % 256,
        K.SERVICE_DATA, K.UUID1, K.UUID2, indicatorByte K d]
      ++ payload K C (getMeasurementByteArray S d).2 (flattenEntries (S.sort d._sensorData)))
  refine ⟨t, ?_, hct⟩
  have hin : ccmInput K (getMeasurementByteArray S d).2 (flattenEntries (S.sort d._sensorData))
      = ccmInput K d (S.sort d._sensorData).flatten := by
    rw [hflat]
    rfl
  have hidx2 : (getMeasurementByteArray S d).2._sensorDataIdx
      = (C.encryptAndTag (ccmInput K d (S.sort d._sensorData).flatten)).1.length := by
    rw [hct, hidx]
    rfl
  have hc : (getMeasurementByteArray S d).2._counter = d._counter := rfl
  rw [ht, payload_encrypted _ _ _ _ (by exact henc), hin, hidx2, hc, range_map_getD,
    four_getD _ (C.length_tag _)]
  simp only [List.length_append, hct, counterBytes, C.length_tag, MIC_LEN, List.length_cons,
    List.length_nil]
  rw [Nat.mod_eq_of_lt (by omega)]
  simp only [List.cons_append, List.nil_append, List.append_assoc]
  congr 4
  omega

/-- The frame length, away from the defect of `addRaw`: after add operations applied to an
empty buffer, the frame has at most 31 bytes whenever the device encrypts or every required
size fits a byte. -/
theorem frame_length_le_31 (K : Definitions) (C : Ccm) (S : StdSort) (ops : List AddOp)
    (d : BaseDevice)
    (h : d._useEncryption = true ∨ ∀ a ∈ ops, a.required < 256) :
    (getAdvertisementData K C S (runAdds ops (resetMeasurement d))).1.length
      ≤ MAX_ADVERTISEMENT_SIZE := by
  have hov := runAdds_preserves_overhead ops (resetMeasurement d)
  have hov2 : overhead (resetMeasurement d) = overhead d := rfl
  have hb : (runAdds ops (resetMeasurement d))._sensorDataIdx + overhead d
      ≤ MAX_MEASUREMENT_SIZE + 1 := by
    have h0 := runAdds_preserves_bound ops (resetMeasurement d) (by
      show 0 + overhead d ≤ 23
      unfold overhead ENCRYPTION_ADDITIONAL_BYTES
      split <;> omega)
    rw [hov, hov2] at h0
    exact h0
  rw [getAdvertisementData_frame]
  apply appendShortName_length_le
  apply appendCompleteName_length_le
  simp only [List.length_append, List.length_cons, List.length_nil]
  by_cases henc : (runAdds ops (resetMeasurement d))._useEncryption = true
  · rw [payload_encrypted _ _ _ _ (by exact henc)]
    have ho : overhead d = 8 := by
      rw [← hov2, ← hov]
      unfold overhead
      rw [if_pos henc]
      rfl
    have hidx : (getMeasurementByteArray S (runAdds ops (resetMeasurement d))).2._sensorDataIdx
        = (runAdds ops (resetMeasurement d))._sensorDataIdx := rfl
    simp only [List.length_append, List.length_map, List.length_range, counterBytes,
      List.length_cons, List.length_nil, hidx]
    unfold MAX_MEASUREMENT_SIZE MAX_ADVERTISEMENT_SIZE HEADER_SIZE at hb
    omega
  · have henc2 : (runAdds ops (resetMeasurement d))._useEncryption = false := by
      simpa using henc
    have ho : overhead (runAdds ops (resetMeasurement d)) = 0 := by
      unfold overhead
      rw [henc2]
      rfl
    have hreq : ∀ a ∈ ops, a.required < 256 := by
      rcases h with h | h
      · exfalso
        rw [hov, hov2] at ho
        unfold overhead at ho
        rw [h] at ho
        exact absurd ho (by decide)
      · exact h
    obtain ⟨hs, hb2⟩ := reachable_counter ops d hreq
    rw [payload_unencrypted _ _ _ _ (by exact henc2)]
    rw [(flattenEntries_sort_length S _ (by omega)).2]
    omega

theorem flattenEntries_length_le (entries : List (List Nat)) :
    (flattenEntries entries).length ≤ 31 := by
  rw [flattenEntries_eq, List.length_take]
  unfold MAX_ADVERTISEMENT_SIZE
  omega

/-- The running indices never leave the range of their `uint8_t` type: whenever the counter
plus the overhead is at most 23 (as it is in every reachable state) the service data has at
most 35 bytes and the frame at most 39, so `serviceDataIndex` and `bufferDataIndex` are the
lengths of the lists of the embedding. -/
theorem frame_length_le_39 (K : Definitions) (C : Ccm) (S : StdSort) (d : BaseDevice)
    (h : d._sensorDataIdx + overhead d ≤ 23) :
    (serviceData K C (getMeasurementByteArray S d).2 (getMeasurementByteArray S d).1).length
        ≤ 35 ∧
      (getAdvertisementData K C S d).1.length ≤ 39 := by
  have hp : (payload K C (getMeasurementByteArray S d).2
      (flattenEntries (S.sort d._sensorData))).length ≤ 31 := by
    by_cases henc : d._useEncryption = true
    · rw [payload_encrypted _ _ _ _ (by exact henc)]
      have hidx : (getMeasurementByteArray S d).2._sensorDataIdx = d._sensorDataIdx := rfl
      simp only [List.length_append, List.length_map, List.length_range, counterBytes,
        List.length_cons, List.length_nil, hidx]
      omega
    · rw [payload_unencrypted _ _ _ _ (by simpa using henc)]
      exact flattenEntries_length_le _
  constructor
  · show ([K.SERVICE_DATA, K.UUID1, K.UUID2, indicatorByte K (getMeasurementByteArray S d).2]
      ++ payload K C (getMeasurementByteArray S d).2
        (flattenEntries (S.sort d._sensorData))).length ≤ 35
    simp only [List.length_append, List.length_cons, List.length_nil]
    omega
  · rw [getAdvertisementData_frame]
    obtain ⟨t2, h2⟩ : ∃ b, b = appendCompleteName K d
        ([K.FLAG1, K.FLAG2, K.FLAG3,
            ((payload K C (getMeasurementByteArray S d).2
              (flattenEntries (S.sort d._sensorData))).length + 4) % 256,
            K.SERVICE_DATA, K.UUID1, K.UUID2, indicatorByte K d]
          ++ payload K C (getMeasurementByteArray S d).2
            (flattenEntries (S.sort d._sensorData))) := ⟨_, rfl⟩
    have hb1 : t2.length ≤ 39 := by
      rw [h2]
      unfold appendCompleteName MAX_ADVERTISEMENT_SIZE TYPE_INDICATOR_SIZE
      simp only
      split
      · simp only [List.length_append, List.length_take, List.length_cons, List.length_nil] at *
        omega
      · simp only [List.length_append, List.length_cons, List.length_nil]
        omega
    rw [← h2]
    unfold appendShortName MAX_ADVERTISEMENT_SIZE TYPE_INDICATOR_SIZE MAX_LENGTH_SHORT_NAME
    simp only
    split
    · simp only [List.length_append, List.length_take, List.length_cons, List.length_nil] at *
      omega
    · exact hb1

theorem getAdvertisementData_names (K : Definitions) (C : Ccm) (S : StdSort) (d : BaseDevice) :
    (getAdvertisementData K C S d).1 =
      appendShortName K d (appendCompleteName K d (frameBase K C S d)) := rfl

/-- C11: name placement. With `L` the length of the frame after the service data, `c` the
length of the stored complete name and `s` that of the stored short name, the frame is the
part up to the service data, then the field `[c + 1, COMPLETE_NAME, name bytes]` exactly when
`L + c + 2 <= 31`, then, with `L'` the length so far, the field
`[s + 1, SHORT_NAME, name bytes]` exactly when `L' + s + 2 <= 31`. Consequently, when the
complete name does not fit (`31 < L + c + 2`) and the short name does (`L + s + 2 <= 31`),
the frame is the first part followed by the short-name field only, and has at most 31
bytes. -/
theorem name_placement (K : Definitions) (C : Ccm) (S : StdSort) (d : BaseDevice) :
    (getAdvertisementData K C S d).1 =
        frameBase K C S d
          ++ (if (frameBase K C S d).length
                + min d._completeName.length K.MAX_LENGTH_COMPLETE_NAME + 2 ≤ 31 then
              [min d._completeName.length K.MAX_LENGTH_COMPLETE_NAME + 1, K.COMPLETE_NAME]
                ++ d._completeName.take (min d._completeName.length K.MAX_LENGTH_COMPLETE_NAME)
            else [])
          ++ (if (frameBase K C S d).length
                + (if (frameBase K C S d).length
                      + min d._completeName.length K.MAX_LENGTH_COMPLETE_NAME + 2 ≤ 31 then
                    min d._completeName.length K.MAX_LENGTH_COMPLETE_NAME + 2 else 0)
                + min d._shortName.length MAX_LENGTH_SHORT_NAME + 2 ≤ 31 then
              [min d._shortName.length MAX_LENGTH_SHORT_NAME + 1, K.SHORT_NAME]
                ++ d._shortName.take (min d._shortName.length MAX_LENGTH_SHORT_NAME)
            else []) ∧
      (31 < (frameBase K C S d).length
            + min d._completeName.length K.MAX_LENGTH_COMPLETE_NAME + 2 →
        (frameBase K C S d).length + min d._shortName.length MAX_LENGTH_SHORT_NAME + 2 ≤ 31 →
        (getAdvertisementData K C S d).1 =
            frameBase K C S d
              ++ ([min d._shortName.length MAX_LENGTH_SHORT_NAME + 1, K.SHORT_NAME]
                ++ d._shortName.take (min d._shortName.length MAX_LENGTH_SHORT_NAME)) ∧
          (getAdvertisementData K C S d).1.length ≤ 31) := by
  have hmain : (getAdvertisementData K C S d).1 =
        frameBase K C S d
          ++ (if (frameBase K C S d).length
                + min d._completeName.length K.MAX_LENGTH_COMPLETE_NAME + 2 ≤ 31 then
              [min d._completeName.length K.MAX_LENGTH_COMPLETE_NAME + 1, K.COMPLETE_NAME]
                ++ d._completeName.take (min d._completeName.length K.MAX_LENGTH_COMPLETE_NAME)
            else [])
          ++ (if (frameBase K C S d).length
                + (if (frameBase K C S d).length
                      + min d._completeName.length K.MAX_LENGTH_COMPLETE_NAME + 2 ≤ 31 then
                    min d._completeName.length K.MAX_LENGTH_COMPLETE_NAME + 2 else 0)
                + min d._shortName.length MAX_LENGTH_SHORT_NAME + 2 ≤ 31 then
              [min d._shortName.length MAX_LENGTH_SHORT_NAME + 1, K.SHORT_NAME]
                ++ d._shortName.take (min d._shortName.length MAX_LENGTH_SHORT_NAME)
            else []) := by
    rw [getAdvertisementData_names]
    generalize frameBase K C S d = base
    unfold appendShortName appendCompleteName MAX_ADVERTISEMENT_SIZE TYPE_INDICATOR_SIZE
    simp only
    by_cases hc : base.length + min d._completeName.length K.MAX_LENGTH_COMPLETE_NAME + 2 ≤ 31
    · have hc' : base.length + min d._completeName.length K.MAX_LENGTH_COMPLETE_NAME + 1 + 1
          ≤ 31 := by omega
      rw [if_pos hc', if_pos hc, if_pos hc]
      have hm : (min d._completeName.length K.MAX_LENGTH_COMPLETE_NAME + 1) % 256
          = min d._completeName.length K.MAX_LENGTH_COMPLETE_NAME + 1 :=
        Nat.mod_eq_of_lt (by omega)
      rw [hm]
      have hl : (base ++ [min d._completeName.length K.MAX_LENGTH_COMPLETE_NAME + 1,
            K.COMPLETE_NAME]
          ++ d._completeName.take (min d._completeName.length K.MAX_LENGTH_COMPLETE_NAME)).length
          = base.length + (min d._completeName.length K.MAX_LENGTH_COMPLETE_NAME + 2) := by
        simp only [List.length_append, List.length_take, List.length_cons, List.length_nil]
        omega
      rw [hl]
      by_cases hs : base.length + (min d._completeName.length K.MAX_LENGTH_COMPLETE_NAME + 2)
          + min d._shortName.length MAX_LENGTH_SHORT_NAME + 2 ≤ 31
      · have hs' : base.length + (min d._completeName.length K.MAX_LENGTH_COMPLETE_NAME + 2) + 1
            + min d._shortName.length MAX_LENGTH_SHORT_NAME + 1 ≤ 31 := by omega
        rw [if_pos hs', if_pos hs]
        have hm2 : (min d._shortName.length MAX_LENGTH_SHORT_NAME + 1) % 256
            = min d._shortName.length MAX_LENGTH_SHORT_NAME + 1 :=
          Nat.mod_eq_of_lt (by omega)
        rw [hm2]
        simp only [List.append_assoc]
      · have hs' : ¬ (base.length + (min d._completeName.length K.MAX_LENGTH_COMPLETE_NAME + 2)
            + 1 + min d._shortName.length MAX_LENGTH_SHORT_NAME + 1 ≤ 31) := by omega
        rw [if_neg hs', if_neg hs]
        simp only [List.append_assoc, List.append_nil]
    · have hc' : ¬ (base.length + min d._completeName.length K.MAX_LENGTH_COMPLETE_NAME + 1 + 1
          ≤ 31) := by omega
      rw [if_neg hc', if_neg hc, if_neg hc]
      by_cases hs : base.length + 0 + min d._shortName.length MAX_LENGTH_SHORT_NAME + 2 ≤ 31
      · have hs' : base.length + 1 + min d._shortName.length MAX_LENGTH_SHORT_NAME + 1 ≤ 31 := by
          omega
        rw [if_pos hs', if_pos hs]
        have hm2 : (min d._shortName.length MAX_LENGTH_SHORT_NAME + 1) % 256
            = min d._shortName.length MAX_LENGTH_SHORT_NAME + 1 :=
          Nat.mod_eq_of_lt (by omega)
        rw [hm2]
        simp only [List.append_assoc, List.append_nil]
      · have hs' : ¬ (base.length + 1 + min d._shortName.length MAX_LENGTH_SHORT_NAME + 1
            ≤ 31) := by omega
        rw [if_neg hs', if_neg hs]
        simp only [List.append_nil]
  refine ⟨hmain, fun hc hs => ?_⟩
  have hfr : (getAdvertisementData K C S d).1 =
      frameBase K C S d
        ++ ([min d._shortName.length MAX_LENGTH_SHORT_NAME + 1, K.SHORT_NAME]
          ++ d._shortName.take (min d._shortName.length MAX_LENGTH_SHORT_NAME)) := by
    have hcn : ¬ ((frameBase K C S d).length
        + min d._completeName.length K.MAX_LENGTH_COMPLETE_NAME + 2 ≤ 31) := by omega
    have hsp : (frameBase K C S d).length + 0
        + min d._shortName.length MAX_LENGTH_SHORT_NAME + 2 ≤ 31 := by omega
    rw [hmain]
    simp only [if_neg hcn]
    rw [if_pos hsp]
    simp only [List.append_nil]
  refine ⟨hfr, ?_⟩
  rw [hfr]
  simp only [List.length_append, List.length_take, List.length_cons, List.length_nil]
  omega

/-- C11 (witness): with the 13-byte complete name, the short name `"T1"` and one 9-byte
entry, the frame is 17 bytes long after the service data; the complete name does not fit,
the short name does. -/
theorem name_placement_witness :
    31 < (frameBase bthomeDefinitions sampleCcm insertionStdSort longNameDeviceWithReading).length
          + min longNameDeviceWithReading._completeName.length
              bthomeDefinitions.MAX_LENGTH_COMPLETE_NAME + 2 ∧
      (getAdvertisementData bthomeDefinitions sampleCcm insertionStdSort
          longNameDeviceWithReading).1 =
        frameBase bthomeDefinitions sampleCcm insertionStdSort longNameDeviceWithReading
          ++ ([min longNameDeviceWithReading._shortName.length MAX_LENGTH_SHORT_NAME + 1,
                bthomeDefinitions.SHORT_NAME]
            ++ longNameDeviceWithReading._shortName.take
                (min longNameDeviceWithReading._shortName.length MAX_LENGTH_SHORT_NAME)) ∧
      (getAdvertisementData bthomeDefinitions sampleCcm insertionStdSort
          longNameDeviceWithReading).1.length ≤ 31 :=
  ⟨by decide,
    (name_placement bthomeDefinitions sampleCcm insertionStdSort longNameDeviceWithReading).2
      (by decide) (by decide)⟩

theorem valueBytes_succ (x w : Nat) :
    valueBytes x (w + 1) = (x % 256) :: valueBytes (x / 256) w := by
  unfold valueBytes
  rw [List.range_succ_eq_map, List.map_cons, List.map_map]
  congr 1
  · simp
  · apply List.map_congr_left
    intro i _
    simp only [Function.comp, Nat.succ_eq_add_one]
    rw [show 8 * (i + 1) = 8 + 8 * i by ring, Nat.pow_add, ← Nat.div_div_eq_div_mul]

/-- The bytes `pushBytes` stores are the little-endian digits of the value reduced modulo
`2 ^ (8 * byteCount)`. -/
theorem decodeLE_valueBytes (x w : Nat) : decodeLE (valueBytes x w) = x % 2 ^ (8 * w) := by
  induction w generalizing x with
  | zero => simp [valueBytes, decodeLE, Nat.mod_one]
  | succ w ih =>
    rw [valueBytes_succ, decodeLE, ih, show 8 * (w + 1) = 8 + 8 * w by ring, Nat.pow_add,
      Nat.mod_mul]

theorem twos_complement_low_bytes (v : Int) (w : Nat) (hw : w ≤ 8) :
    ((v % 2 ^ 64).toNat % 2 ^ 64) % 2 ^ (8 * w) = (v % 2 ^ (8 * w)).toNat := by
  have h64 : (0 : Int) ≤ v % 2 ^ 64 := Int.emod_nonneg _ (by positivity)
  have hlt : v % 2 ^ 64 < 2 ^ 64 := Int.emod_lt_of_pos _ (by positivity)
  have hdvd : ((2 : Int) ^ (8 * w)) ∣ 2 ^ 64 := pow_dvd_pow 2 (by omega)
  have hpos : (0 : Int) ≤ v % 2 ^ (8 * w) := Int.emod_nonneg _ (by positivity)
  have hn : (((v % 2 ^ 64).toNat : Nat) : Int) = v % 2 ^ 64 := Int.toNat_of_nonneg h64
  have hnlt : (v % 2 ^ 64).toNat < 2 ^ 64 := by
    have : (((v % 2 ^ 64).toNat : Nat) : Int) < ((2 ^ 64 : Nat) : Int) := by
      rw [hn]
      exact_mod_cast hlt
    exact_mod_cast this
  rw [Nat.mod_eq_of_lt hnlt]
  apply Int.ofNat_inj.mp
  rw [Int.toNat_of_nonneg hpos, Int.natCast_mod, hn, Nat.cast_pow]
  exact Int.emod_emod_of_dvd _ hdvd

theorem AddOp.pushed_entry (a : AddOp) (sensor : BtHomeState) (x : Nat)
    (hp : a.pushed = some (sensor, x)) :
    a.entry = sensor.id :: valueBytes x sensor.byteCount ∧
      a.required = sensor.byteCount + 1 ∧ x < 2 ^ 64 := by
  cases a <;> simp only [AddOp.pushed, Option.some.injEq, Prod.mk.injEq] at hp
  all_goals first
    | (obtain ⟨rfl, rfl⟩ := hp
       refine ⟨rfl, rfl, ?_⟩
       first
         | exact Nat.mod_lt _ (by norm_num)
         | exact lt_of_lt_of_le (Nat.mod_lt _ (by norm_num)) (by norm_num))
    | exact absurd hp (by simp)

/-- C12: typed-add postcondition. When a typed add operation (`addState`,
`addUnsignedInteger`, `addSignedInteger`, `addFloat`) with a descriptor of id `id` and width
`w` in `1..8` hands the 64-bit value `x` to `pushBytes` and returns `true`, exactly the entry
`[id, b0, ..., b(w-1)]` with `b_i = (x >> 8i) & 0xFF` is appended after the existing entries,
which stay as they are, and the consumed-byte counter grows by `w + 1`. The value bytes are
the little-endian digits of `x mod 2 ^ (8 * w)`, so a value that does not fit is cut
(`x = 235000`, `w = 2` gives `F8 95`), and a signed value `v` is stored as the low `w` bytes
of its two's complement. -/
theorem typed_add_postcondition (a : AddOp) (sensor : BtHomeState) (x : Nat) (d : BaseDevice)
    (hp : a.pushed = some (sensor, x)) (hw1 : 1 ≤ sensor.byteCount)
    (hw8 : sensor.byteCount ≤ 8) (hidx : d._sensorDataIdx < 256)
    (hacc : (a.apply d).1 = true) :
    (a.apply d).2._sensorData =
        d._sensorData ++
          [sensor.id :: (List.range sensor.byteCount).map (fun i => x / 2 ^ (8 * i) % 256)] ∧
      (a.apply d).2._sensorDataIdx = d._sensorDataIdx + (sensor.byteCount + 1) ∧
      x < 2 ^ 64 ∧
      decodeLE ((List.range sensor.byteCount).map (fun i => x / 2 ^ (8 * i) % 256))
        = x % 2 ^ (8 * sensor.byteCount) ∧
      (List.range 2).map (fun i => 235000 / 2 ^ (8 * i) % 256) = [0xF8, 0x95] ∧
      (∀ v : Int, a = AddOp.signedInteger sensor v →
        x % 2 ^ (8 * sensor.byteCount) = (v % 2 ^ (8 * sensor.byteCount)).toNat) := by
  obtain ⟨hentry, hreq, hx⟩ := AddOp.pushed_entry a sensor x hp
  rw [AddOp.apply_eq] at hacc ⊢
  by_cases hs : hasEnoughSpace a.required d = true
  · rw [if_pos hs]
    have hfit := (hasEnoughSpace_iff a.required d hidx).mp hs
    rw [hreq, Nat.mod_eq_of_lt (by omega)] at hfit
    refine ⟨?_, ?_, hx, decodeLE_valueBytes x sensor.byteCount, by decide, ?_⟩
    · show d._sensorData ++ [a.entry] = _
      rw [hentry]
      rfl
    · show (d._sensorDataIdx + a.required) % 256 = _
      rw [hreq]
      exact Nat.mod_eq_of_lt (by omega)
    · intro v hv
      subst hv
      simp only [AddOp.pushed, Option.some.injEq, Prod.mk.injEq, true_and] at hp
      rw [← hp]
      exact twos_complement_low_bytes v sensor.byteCount hw8
  · rw [if_neg hs] at hacc
    exact absurd hacc (by simp)

/-- C12 (witness): `addUnsignedInteger` with id `0x02`, width 2 and the value 235000 on the
empty buffer of the sample device. -/
theorem typed_add_postcondition_witness :
    ((AddOp.unsignedInteger ⟨0x02, 2⟩ 235000).apply plainDevice).1 = true ∧
      ((AddOp.unsignedInteger ⟨0x02, 2⟩ 235000).apply plainDevice).2._sensorData =
        plainDevice._sensorData ++
          [0x02 :: (List.range 2).map (fun i => 235000 / 2 ^ (8 * i) % 256)] ∧
      ((AddOp.unsignedInteger ⟨0x02, 2⟩ 235000).apply plainDevice).2._sensorDataIdx =
        plainDevice._sensorDataIdx + (2 + 1) :=
  ⟨by decide,
    (typed_add_postcondition (AddOp.unsignedInteger ⟨0x02, 2⟩ 235000) ⟨0x02, 2⟩ 235000
      plainDevice (by decide) (by decide) (by decide) (by decide) (by decide)).1,
    (typed_add_postcondition (AddOp.unsignedInteger ⟨0x02, 2⟩ 235000) ⟨0x02, 2⟩ 235000
      plainDevice (by decide) (by decide) (by decide) (by decide) (by decide)).2.1⟩

/-- C13 (evaluation at the failing input): on a fresh device `addRaw` with length 254 returns
`true` and appends the entry `[0x54, 254, bytes...]` after the existing entries, but the
consumed-byte counter is the same after the call as before, not `254 + 2` greater. -/
theorem addRaw_254_counter_stays (K : Definitions) (sn cn : List Nat) (t : Bool) :
    (addRaw 0x54 raw254 254 (BaseDevice.create K sn cn t)).1 = true ∧
      (addRaw 0x54 raw254 254 (BaseDevice.create K sn cn t)).2._sensorData
        = (BaseDevice.create K sn cn t)._sensorData ++ [0x54 :: 254 :: raw254] ∧
      (addRaw 0x54 raw254 254 (BaseDevice.create K sn cn t)).2._sensorDataIdx
        = (BaseDevice.create K sn cn t)._sensorDataIdx ∧
      (addRaw 0x54 raw254 254 (BaseDevice.create K sn cn t)).2._sensorDataIdx
        ≠ (BaseDevice.create K sn cn t)._sensorDataIdx + (254 + 2) := by
  rw [addRaw_254_create]
  exact ⟨rfl, rfl, rfl, fun h => absurd h (by simp [BaseDevice.create, resetMeasurement])⟩

/-- The postcondition of `addRaw` away from the `uint8_t` narrowing: for a length of at most
253, an accepted call appends the entry `[sensorId, length, bytes...]` after the existing
entries and advances the counter by `length + 2`. -/
theorem addRaw_postcondition (sensorId size : Nat) (value : List Nat) (d : BaseDevice)
    (hid : sensorId < 256) (hsize : size ≤ 253) (hidx : d._sensorDataIdx < 256)
    (hacc : (addRaw sensorId value size d).1 = true) :
    (addRaw sensorId value size d).2._sensorData =
        d._sensorData ++
          [sensorId :: size :: (List.range size).map (fun i => value.getD i 0 % 256)] ∧
      (addRaw sensorId value size d).2._sensorDataIdx = d._sensorDataIdx + (size + 2) := by
  have hap : addRaw sensorId value size d = (AddOp.raw sensorId value size).apply d := rfl
  rw [hap, AddOp.apply_eq] at hacc ⊢
  have hreq : (AddOp.raw sensorId value size).required = size + 2 := by
    simp [AddOp.required, RAW_HEADER_BYTE_SIZE, Nat.mod_eq_of_lt (show size < 256 by omega)]
  by_cases hs : hasEnoughSpace (AddOp.raw sensorId value size).required d = true
  · rw [if_pos hs]
    have hfit := (hasEnoughSpace_iff _ d hidx).mp hs
    rw [hreq, Nat.mod_eq_of_lt (by omega)] at hfit
    constructor
    · show d._sensorData ++ [(AddOp.raw sensorId value size).entry] = _
      simp [AddOp.entry, Nat.mod_eq_of_lt hid, Nat.mod_eq_of_lt (show size < 256 by omega)]
    · show (d._sensorDataIdx + (AddOp.raw sensorId value size).required) % 256 = _
      rw [hreq]
      exact Nat.mod_eq_of_lt (by omega)
  · rw [if_neg hs] at hacc
    exact absurd hacc (by simp)

theorem stepState_eq (state steps : Nat) (hst : state < 256) (hsp : steps < 256) :
    (((steps % 256) * 256) ||| (state % 256)) % 2 ^ 16 = steps * 256 + state := by
  rw [Nat.mod_eq_of_lt hst, Nat.mod_eq_of_lt hsp, Nat.mul_comm,
    ← Nat.mul_add_lt_is_or (i := 8) (by norm_num; exact hst) steps]
  norm_num
  omega

/-- C14: a successful `addState(descriptor, state, steps)` with a descriptor of width 2
appends the entry `[id, state, steps]`, the 16-bit little-endian word with the state in the
low byte and the steps in the high byte; a successful `addState(descriptor, state)` with a
descriptor of width 1 appends `[id, state]`. -/
theorem addState_entries (sensor2 sensor1 : BtHomeState) (state steps : Nat)
    (d2 d1 : BaseDevice) (hst : state < 256) (hsp : steps < 256)
    (hw2 : sensor2.byteCount = 2) (hw1 : sensor1.byteCount = 1)
    (hacc2 : (addStateSteps sensor2 state steps d2).1 = true)
    (hacc1 : (addState sensor1 state d1).1 = true) :
    (addStateSteps sensor2 state steps d2).2._sensorData
        = d2._sensorData ++ [[sensor2.id, state, steps]] ∧
      decodeLE [state, steps] = steps * 256 + state ∧
      (addState sensor1 state d1).2._sensorData = d1._sensorData ++ [[sensor1.id, state]] := by
  refine ⟨?_, by simp [decodeLE]; omega, ?_⟩
  · have hap : addStateSteps sensor2 state steps d2
        = (AddOp.stateSteps sensor2 state steps).apply d2 := rfl
    rw [hap, AddOp.apply_eq] at hacc2 ⊢
    by_cases hs : hasEnoughSpace (AddOp.stateSteps sensor2 state steps).required d2 = true
    · rw [if_pos hs]
      show d2._sensorData ++ [(AddOp.stateSteps sensor2 state steps).entry] = _
      simp only [AddOp.entry, hw2, stepState_eq state steps hst hsp]
      have hv : valueBytes (steps * 256 + state) 2 = [state, steps] := by
        simp only [valueBytes, List.range_succ, List.range_zero, List.nil_append,
          List.map_cons, List.map_nil, List.cons_append]
        norm_num
        omega
      rw [hv]
    · rw [if_neg hs] at hacc2
      exact absurd hacc2 (by simp)
  · have hap : addState sensor1 state d1 = (AddOp.state sensor1 state).apply d1 := rfl
    rw [hap, AddOp.apply_eq] at hacc1 ⊢
    by_cases hs : hasEnoughSpace (AddOp.state sensor1 state).required d1 = true
    · rw [if_pos hs]
      show d1._sensorData ++ [(AddOp.state sensor1 state).entry] = _
      simp only [AddOp.entry, hw1, Nat.mod_eq_of_lt hst]
      have hv : valueBytes state 1 = [state] := by
        simp only [valueBytes, List.range_succ, List.range_zero, List.nil_append,
          List.map_cons, List.map_nil]
        norm_num
        omega
      rw [hv]
    · rw [if_neg hs] at hacc1
      exact absurd hacc1 (by simp)

/-- C14 (witness): a dimmer event (id `0x3C`, width 2) with state 1 and 3 steps, and a button
event (id `0x3A`, width 1) with state 1, each on the empty buffer of the sample device. -/
theorem addState_entries_witness :
    (addStateSteps ⟨0x3C, 2⟩ 1 3 plainDevice).1 = true ∧
      (addState ⟨0x3A, 1⟩ 1 plainDevice).1 = true ∧
      (addStateSteps ⟨0x3C, 2⟩ 1 3 plainDevice).2._sensorData
        = plainDevice._sensorData ++ [[0x3C, 1, 3]] ∧
      decodeLE [1, 3] = 3 * 256 + 1 ∧
      (addState ⟨0x3A, 1⟩ 1 plainDevice).2._sensorData
        = plainDevice._sensorData ++ [[0x3A, 1]] :=
  ⟨by decide, by decide,
    addState_entries ⟨0x3C, 2⟩ ⟨0x3A, 1⟩ 1 3 plainDevice plainDevice (by decide) (by decide)
      rfl rfl (by decide) (by decide)⟩

theorem resetMeasurement_add (a : AddOp) (d : BaseDevice) :
    resetMeasurement (a.apply d).2 = resetMeasurement d := by
  rw [AddOp.apply_eq]
  split <;> rfl

theorem resetMeasurement_advertise (K : Definitions) (C : Ccm) (S : StdSort) (d : BaseDevice)
    (h : d._useEncryption = false) :
    resetMeasurement (getAdvertisementData K C S d).2 = resetMeasurement d := by
  cases d
  simp only at h
  subst h
  rfl

/-- Without encryption, whatever was called before, `resetMeasurement` leaves the state that
`resetMeasurement` would have left at the start. -/
theorem resetMeasurement_runOps (K : Definitions) (C : Ccm) (S : StdSort) (ops : List Op)
    (d : BaseDevice) (h : d._useEncryption = false) :
    resetMeasurement (runOps K C S ops d) = resetMeasurement d := by
  induction ops generalizing d with
  | nil => rfl
  | cons op ops ih =>
    have hstep : (op.step K C S d)._useEncryption = false := by
      rw [(step_preserves_flags K C S op d).2]
      exact h
    have h1 : runOps K C S (op :: ops) d = runOps K C S ops (op.step K C S d) := rfl
    rw [h1, ih _ hstep]
    cases op with
    | add a => exact resetMeasurement_add a d
    | reset => rfl
    | advertise => exact resetMeasurement_advertise K C S d h

/-- C15: `resetMeasurement`, from any state, leaves no entries and a consumed-byte counter of
zero, and leaves the names, the trigger flag, the encryption flag, the key, the address and
the message counter as they were. Hence, for a device without encryption, the frame produced
after any calls, then `resetMeasurement`, then the add operations `A`, is the frame (and the
state) that a freshly constructed device with the same names and trigger flag produces after
the add operations `A`. -/
theorem reset_clears_buffer (K : Definitions) (C : Ccm) (S : StdSort) (sn cn : List Nat)
    (t : Bool) (before : List Op) (A : List AddOp) (d : BaseDevice) :
    (resetMeasurement d)._sensorData = [] ∧
      (resetMeasurement d)._sensorDataIdx = 0 ∧
      (resetMeasurement d)._shortName = d._shortName ∧
      (resetMeasurement d)._completeName = d._completeName ∧
      (resetMeasurement d)._triggerDevice = d._triggerDevice ∧
      (resetMeasurement d)._useEncryption = d._useEncryption ∧
      (resetMeasurement d).bindKey = d.bindKey ∧
      (resetMeasurement d)._macAddress = d._macAddress ∧
      (resetMeasurement d)._counter = d._counter ∧
      getAdvertisementData K C S
          (runAdds A (resetMeasurement (runOps K C S before (BaseDevice.create K sn cn t))))
        = getAdvertisementData K C S (runAdds A (BaseDevice.create K sn cn t)) := by
  refine ⟨rfl, rfl, rfl, rfl, rfl, rfl, rfl, rfl, rfl, ?_⟩
  rw [resetMeasurement_runOps K C S before _ rfl]
  rfl

theorem allAccepted_entries (ops : List AddOp) (d : BaseDevice)
    (h : allAccepted ops d = true) : acceptedEntries ops d = ops.map AddOp.entry := by
  induction ops generalizing d with
  | nil => rfl
  | cons a ops ih =>
    simp only [allAccepted, Bool.and_eq_true] at h
    rw [acceptedEntries, if_pos h.1, ih _ h.2]
    rfl

theorem resetMeasurement_runAdds (ops : List AddOp) (d : BaseDevice) :
    resetMeasurement (runAdds ops d) = resetMeasurement d := by
  induction ops generalizing d with
  | nil => rfl
  | cons a ops ih => rw [runAdds_cons, ih, resetMeasurement_add]

/-- Two sorted rearrangements of the same entries are equal when no two entries share a
leading sensor id. -/
theorem sorted_perm_unique (l1 l2 : List (List Nat)) (hperm : l1.Perm l2)
    (h1 : l1.Pairwise (fun a b => a.headD 0 ≤ b.headD 0))
    (h2 : l2.Pairwise (fun a b => a.headD 0 ≤ b.headD 0))
    (hnd : (l1.map leadingId).Nodup) : l1 = l2 := by
  have hnd2 : (l2.map leadingId).Nodup := (hperm.map leadingId).nodup_iff.mp hnd
  have hs1 : l1.Pairwise (fun a b => leadingId a < leadingId b) := by
    have hne : l1.Pairwise (fun a b => leadingId a ≠ leadingId b) :=
      List.pairwise_map.mp hnd
    exact (h1.and hne).imp (fun h => lt_of_le_of_ne h.1 h.2)
  have hs2 : l2.Pairwise (fun a b => leadingId a < leadingId b) := by
    have hne : l2.Pairwise (fun a b => leadingId a ≠ leadingId b) :=
      List.pairwise_map.mp hnd2
    exact (h2.and hne).imp (fun h => lt_of_le_of_ne h.1 h.2)
  have hanti : IsAntisymm (List Nat) (fun a b => leadingId a < leadingId b) :=
    ⟨fun _ _ hab hba => absurd hab (Nat.lt_asymm hba)⟩
  exact List.eq_of_perm_of_sorted hperm hs1 hs2

/-- The frame of a device without encryption is determined by its names, its trigger flag
and its sorted entries. -/
theorem unencrypted_frame_congr (K : Definitions) (C : Ccm) (S : StdSort) (d e : BaseDevice)
    (hd : d._useEncryption = false) (hreset : resetMeasurement d = resetMeasurement e)
    (hsort : S.sort d._sensorData = S.sort e._sensorData) :
    (getAdvertisementData K C S d).1 = (getAdvertisementData K C S e).1 := by
  have hsn : d._shortName = e._shortName := show (resetMeasurement d)._shortName = (resetMeasurement e)._shortName from by rw [hreset]
  have hcn : d._completeName = e._completeName :=
    show (resetMeasurement d)._completeName = (resetMeasurement e)._completeName from by rw [hreset]
  have htr : d._triggerDevice = e._triggerDevice :=
    show (resetMeasurement d)._triggerDevice = (resetMeasurement e)._triggerDevice from by rw [hreset]
  have hen : d._useEncryption = e._useEncryption :=
    show (resetMeasurement d)._useEncryption = (resetMeasurement e)._useEncryption from by rw [hreset]
  have he : e._useEncryption = false := by rw [← hen]; exact hd
  rw [getAdvertisementData_frame, getAdvertisementData_frame,
    payload_unencrypted _ _ _ _ (by exact hd), payload_unencrypted _ _ _ _ (by exact he)]
  unfold appendShortName appendCompleteName indicatorByte
  rw [hsn, hcn, htr, hen, hsort]

/-- C16: wire layout independent of call order. For a device without encryption and an empty
buffer, two sequences of add operations that are rearrangements of one another, in each of
which every operation returns `true`, and whose entries have pairwise different leading
sensor ids, lead `getAdvertisementData` to byte-identical frames (of equal length). -/
theorem frame_independent_of_call_order (K : Definitions) (C : Ccm) (S : StdSort)
    (d : BaseDevice) (ops1 ops2 : List AddOp) (henc : d._useEncryption = false)
    (hperm : ops1.Perm ops2)
    (h1 : allAccepted ops1 (resetMeasurement d) = true)
    (h2 : allAccepted ops2 (resetMeasurement d) = true)
    (hid : (ops1.map (fun a => leadingId a.entry)).Nodup) :
    (getAdvertisementData K C S (runAdds ops1 (resetMeasurement d))).1
        = (getAdvertisementData K C S (runAdds ops2 (resetMeasurement d))).1 ∧
      (getAdvertisementData K C S (runAdds ops1 (resetMeasurement d))).1.length
        = (getAdvertisementData K C S (runAdds ops2 (resetMeasurement d))).1.length := by
  have hd1 : (runAdds ops1 (resetMeasurement d))._sensorData = ops1.map AddOp.entry := by
    rw [runAdds_sensorData, allAccepted_entries _ _ h1]
    rfl
  have hd2 : (runAdds ops2 (resetMeasurement d))._sensorData = ops2.map AddOp.entry := by
    rw [runAdds_sensorData, allAccepted_entries _ _ h2]
    rfl
  have hsort : S.sort (runAdds ops1 (resetMeasurement d))._sensorData
      = S.sort (runAdds ops2 (resetMeasurement d))._sensorData := by
    rw [hd1, hd2]
    apply sorted_perm_unique
    · exact (S.perm _).trans ((hperm.map AddOp.entry).trans (S.perm _).symm)
    · exact S.heads_sorted _
    · exact S.heads_sorted _
    · have hp : ((S.sort (ops1.map AddOp.entry)).map leadingId).Perm
          (ops1.map (fun a => leadingId a.entry)) := by
        have := (S.perm (ops1.map AddOp.entry)).map leadingId
        rwa [List.map_map] at this
      exact hp.nodup_iff.mpr hid
  have hfr := unencrypted_frame_congr K C S (runAdds ops1 (resetMeasurement d))
    (runAdds ops2 (resetMeasurement d))
    (by
      have : (resetMeasurement (runAdds ops1 (resetMeasurement d)))._useEncryption
          = (resetMeasurement (resetMeasurement d))._useEncryption := by
        rw [resetMeasurement_runAdds]
      exact this.trans henc)
    (by rw [resetMeasurement_runAdds, resetMeasurement_runAdds])
    hsort
  exact ⟨hfr, congrArg List.length hfr⟩

/-- C16 (witness): humidity, battery and temperature readings added in two different orders
to the sample device give the same frame. -/
theorem frame_independent_of_call_order_witness :
    threeReadings.Perm threeReadingsReordered ∧
      allAccepted threeReadings (resetMeasurement plainDevice) = true ∧
      allAccepted threeReadingsReordered (resetMeasurement plainDevice) = true ∧
      (getAdvertisementData bthomeDefinitions sampleCcm insertionStdSort
          (runAdds threeReadings (resetMeasurement plainDevice))).1
        = (getAdvertisementData bthomeDefinitions sampleCcm insertionStdSort
          (runAdds threeReadingsReordered (resetMeasurement plainDevice))).1 :=
  ⟨by decide, by decide, by decide,
    (frame_independent_of_call_order bthomeDefinitions sampleCcm insertionStdSort plainDevice
      threeReadings threeReadingsReordered (by decide) (by decide) (by decide) (by decide)
      (by decide)).1⟩

/-- What the contract of `std::sort` gives for every buffer: the sorted entries are in
non-decreasing order of leading sensor id and hold, for every sensor id, a rearrangement of
the entries with that id; the assembled bytes are the first 31 bytes of their concatenation.
When `std::sort` is an insertion sort, two entries with the same leading id keep the order in
which they were added. -/
theorem sort_orders_by_id_keeps_ties (S : StdSort) (d : BaseDevice) :
    (getMeasurementByteArray S d).1
        = ((getMeasurementByteArray S d).2._sensorData.flatten).take MAX_ADVERTISEMENT_SIZE ∧
      (getMeasurementByteArray S d).2._sensorData.Pairwise
        (fun a b => leadingId a ≤ leadingId b) ∧
      (∀ k : Nat,
        ((getMeasurementByteArray S d).2._sensorData.filter
            (fun e => decide (leadingId e = k))).Perm
          (d._sensorData.filter (fun e => decide (leadingId e = k)))) ∧
      (∀ a b : List Nat, leadingId a = leadingId b → List.Sublist [a, b] d._sensorData →
        List.Sublist [a, b] (getMeasurementByteArray insertionStdSort d).2._sensorData) := by
  refine ⟨flattenEntries_eq _, S.heads_sorted _, fun k => ?_, fun a b hab hsub => ?_⟩
  · exact (S.perm d._sensorData).filter _
  · exact List.pair_sublist_insertionSort (r := entryLe) (le_of_eq hab) hsub

theorem getAdvertisementData_sensorData (K : Definitions) (C : Ccm) (S : StdSort)
    (d : BaseDevice) :
    (getAdvertisementData K C S d).2._sensorData = S.sort d._sensorData ∧
      (getAdvertisementData K C S d).2._sensorDataIdx = d._sensorDataIdx := by
  unfold getAdvertisementData getMeasurementByteArray
  simp only []
  cases d._useEncryption <;> exact ⟨rfl, rfl⟩

theorem getAdvertisementData_overhead (K : Definitions) (C : Ccm) (S : StdSort)
    (d : BaseDevice) : overhead (getAdvertisementData K C S d).2 = overhead d := by
  unfold overhead
  rw [getAdvertisementData_useEncryption]

theorem getAdvertisementData_storedBytes (K : Definitions) (C : Ccm) (S : StdSort)
    (d : BaseDevice) : storedBytes (getAdvertisementData K C S d).2 = storedBytes d := by
  unfold storedBytes
  rw [(getAdvertisementData_sensorData K C S d).1]
  exact S.storedBytes_sort _

/-- The buffer survives `getAdvertisementData`. After a call, in any state, the consumed-byte
counter is unchanged and the entries are a rearrangement of the entries before. For a device
without encryption whose buffer was filled from empty by add operations with required sizes
that fit a byte: if the leading sensor ids in the buffer are pairwise different, a second
call right after the first returns the same frame, whatever `std::sort` does with ties; and
after further add operations (again with required sizes that fit a byte) the next frame
carries, after its 8 header bytes, the concatenation of the sorted entries, among which is
every entry that was in the buffer at the first call. -/
theorem advertise_keeps_buffer (K : Definitions) (C : Ccm) (S : StdSort) (d0 : BaseDevice)
    (ops1 ops2 : List AddOp) (henc : d0._useEncryption = false)
    (hreq1 : ∀ a ∈ ops1, a.required < 256) (hreq2 : ∀ a ∈ ops2, a.required < 256)
    (hid : ((runAdds ops1 (resetMeasurement d0))._sensorData.map leadingId).Nodup) :
    (∀ e : BaseDevice,
        (getAdvertisementData K C S e).2._sensorDataIdx = e._sensorDataIdx ∧
        (getAdvertisementData K C S e).2._sensorData.Perm e._sensorData) ∧
      (getAdvertisementData K C S
          (getAdvertisementData K C S (runAdds ops1 (resetMeasurement d0))).2).1
        = (getAdvertisementData K C S (runAdds ops1 (resetMeasurement d0))).1 ∧
      (∃ names,
        (getAdvertisementData K C S
            (runAdds ops2
              (getAdvertisementData K C S (runAdds ops1 (resetMeasurement d0))).2)).1
          = [K.FLAG1, K.FLAG2, K.FLAG3,
              4 + storedBytes (runAdds ops2
                (getAdvertisementData K C S (runAdds ops1 (resetMeasurement d0))).2),
              K.SERVICE_DATA, K.UUID1, K.UUID2,
              indicatorByte K (runAdds ops2
                (getAdvertisementData K C S (runAdds ops1 (resetMeasurement d0))).2)]
            ++ (S.sort (runAdds ops2
                (getAdvertisementData K C S
                  (runAdds ops1 (resetMeasurement d0))).2)._sensorData).flatten
            ++ names) ∧
      (∀ e ∈ (runAdds ops1 (resetMeasurement d0))._sensorData,
        e ∈ S.sort (runAdds ops2
          (getAdvertisementData K C S (runAdds ops1 (resetMeasurement d0))).2)._sensorData) := by
  have hencd : (runAdds ops1 (resetMeasurement d0))._useEncryption = false := by
    have : (resetMeasurement (runAdds ops1 (resetMeasurement d0)))._useEncryption
        = (resetMeasurement (resetMeasurement d0))._useEncryption := by
      rw [resetMeasurement_runAdds]
    exact this.trans henc
  obtain ⟨hs1, hb1⟩ := reachable_counter ops1 d0 hreq1
  refine ⟨fun e => ?_, ?_, ?_, ?_⟩
  · obtain ⟨h1, h2⟩ := getAdvertisementData_sensorData K C S e
    exact ⟨h2, by rw [h1]; exact S.perm _⟩
  · apply unencrypted_frame_congr
    · rw [getAdvertisementData_useEncryption]
      exact hencd
    · exact resetMeasurement_advertise K C S _ hencd
    · rw [(getAdvertisementData_sensorData K C S _).1]
      apply sorted_perm_unique
      · exact S.perm _
      · exact S.heads_sorted _
      · exact S.heads_sorted _
      · have hp := ((S.perm (S.sort (runAdds ops1 (resetMeasurement d0))._sensorData)).trans
          (S.perm _)).map leadingId
        exact hp.nodup_iff.mpr hid
  · have hb2 : (getAdvertisementData K C S (runAdds ops1 (resetMeasurement d0))).2._sensorDataIdx
        + overhead (getAdvertisementData K C S (runAdds ops1 (resetMeasurement d0))).2 ≤ 23 := by
      rw [(getAdvertisementData_sensorData K C S _).2, getAdvertisementData_overhead]
      exact hb1
    have hs2 : storedBytes (getAdvertisementData K C S (runAdds ops1 (resetMeasurement d0))).2
        = (getAdvertisementData K C S (runAdds ops1 (resetMeasurement d0))).2._sensorDataIdx := by
      rw [(getAdvertisementData_sensorData K C S _).2, getAdvertisementData_storedBytes]
      exact hs1
    have hs3 := runAdds_stored_eq_counter ops2 _ hreq2 hb2 hs2
    have hb3 := runAdds_preserves_bound ops2 _ hb2
    have henc3 : (runAdds ops2
        (getAdvertisementData K C S (runAdds ops1 (resetMeasurement d0))).2)._useEncryption
        = false := by
      have : (resetMeasurement (runAdds ops2
          (getAdvertisementData K C S (runAdds ops1 (resetMeasurement d0))).2))._useEncryption
          = (resetMeasurement
            (getAdvertisementData K C S (runAdds ops1 (resetMeasurement d0))).2)._useEncryption := by
        rw [resetMeasurement_runAdds]
      refine this.trans ?_
      show (getAdvertisementData K C S (runAdds ops1 (resetMeasurement d0))).2._useEncryption
        = false
      rw [getAdvertisementData_useEncryption]
      exact hencd
    obtain ⟨names, hfr, _⟩ := unencrypted_frame_layout K C S _ henc3 (by omega)
    exact ⟨names, hfr⟩
  · intro e he
    apply (S.perm _).mem_iff.mpr
    rw [runAdds_sensorData]
    apply List.mem_append_left
    rw [(getAdvertisementData_sensorData K C S _).1]
    exact (S.perm _).mem_iff.mpr he

/-- An instance of `advertise_keeps_buffer`: the sample device with humidity, battery and
temperature readings; after the first frame a button event is added. -/
theorem advertise_keeps_buffer_witness :
    ((runAdds threeReadings (resetMeasurement plainDevice))._sensorData.map leadingId).Nodup ∧
      (getAdvertisementData bthomeDefinitions sampleCcm insertionStdSort
          (getAdvertisementData bthomeDefinitions sampleCcm insertionStdSort
            (runAdds threeReadings (resetMeasurement plainDevice))).2).1
        = (getAdvertisementData bthomeDefinitions sampleCcm insertionStdSort
            (runAdds threeReadings (resetMeasurement plainDevice))).1 :=
  ⟨by decide,
    (advertise_keeps_buffer bthomeDefinitions sampleCcm insertionStdSort plainDevice
      threeReadings [AddOp.state ⟨0x3A, 1⟩ 1] (by decide) (by decide) (by decide)
      (by decide)).2.1⟩

theorem createEncrypted_overhead (K : Definitions) (sn cn : List Nat) (t : Bool)
    (key mac : List Nat) (c : Nat) :
    overhead (BaseDevice.createEncrypted K sn cn t key mac c) = 8 := rfl

theorem addRaw_254_createEncrypted (K : Definitions) (sn cn : List Nat) (t : Bool)
    (key mac : List Nat) (c : Nat) :
    addRaw 0x54 raw254 254 (BaseDevice.createEncrypted K sn cn t key mac c) =
      (true, { BaseDevice.createEncrypted K sn cn t key mac c with
                _sensorData := [0x54 :: 254 :: raw254], _sensorDataIdx := 0 }) := by
  have h : hasEnoughSpace (254 % 256 + RAW_HEADER_BYTE_SIZE)
      (BaseDevice.createEncrypted K sn cn t key mac c) = true := by
    rw [hasEnoughSpace_iff _ _ (by
      simp [BaseDevice.createEncrypted, BaseDevice.create, resetMeasurement]),
      createEncrypted_overhead]
    simp [BaseDevice.createEncrypted, BaseDevice.create, resetMeasurement,
      RAW_HEADER_BYTE_SIZE]
  unfold addRaw
  rw [h, raw254_read]
  simp [BaseDevice.createEncrypted, BaseDevice.create, resetMeasurement, RAW_HEADER_BYTE_SIZE]

/-- C20 (evaluation at the failing input): the state reached from a freshly constructed
encrypted device by the one call `addRaw(0x54, value, 254)` has the consumed-byte counter 0
while its entries hold 256 bytes and `getMeasurementByteArray` returns 31 bytes; the
primitive returns 31 ciphertext bytes, and the copy loop, bounded by the counter, puts none
of them into the service data, whose payload is the 4 counter bytes and the 4 tag bytes
only. -/
theorem addRaw_254_counter_differs_from_stored (K : Definitions) (C : Ccm) (S : StdSort)
    (sn cn : List Nat) (t : Bool) (key mac : List Nat) (c : Nat) :
    (runOps K C S [Op.add (AddOp.raw 0x54 raw254 254)]
        (BaseDevice.createEncrypted K sn cn t key mac c))._sensorDataIdx = 0 ∧
      storedBytes (runOps K C S [Op.add (AddOp.raw 0x54 raw254 254)]
        (BaseDevice.createEncrypted K sn cn t key mac c)) = 256 ∧
      (getMeasurementByteArray S (runOps K C S [Op.add (AddOp.raw 0x54 raw254 254)]
        (BaseDevice.createEncrypted K sn cn t key mac c))).1.length = 31 ∧
      (C.encryptAndTag (ccmInput K
        (getMeasurementByteArray S (runOps K C S [Op.add (AddOp.raw 0x54 raw254 254)]
          (BaseDevice.createEncrypted K sn cn t key mac c))).2
        (getMeasurementByteArray S (runOps K C S [Op.add (AddOp.raw 0x54 raw254 254)]
          (BaseDevice.createEncrypted K sn cn t key mac c))).1)).1.length = 31 ∧
      (payload K C
        (getMeasurementByteArray S (runOps K C S [Op.add (AddOp.raw 0x54 raw254 254)]
          (BaseDevice.createEncrypted K sn cn t key mac c))).2
        (getMeasurementByteArray S (runOps K C S [Op.add (AddOp.raw 0x54 raw254 254)]
          (BaseDevice.createEncrypted K sn cn t key mac c))).1).length = 8 := by
  have hrun : runOps K C S [Op.add (AddOp.raw 0x54 raw254 254)]
      (BaseDevice.createEncrypted K sn cn t key mac c)
      = { BaseDevice.createEncrypted K sn cn t key mac c with
            _sensorData := [0x54 :: 254 :: raw254], _sensorDataIdx := 0 } := by
    show (addRaw 0x54 raw254 254 (BaseDevice.createEncrypted K sn cn t key mac c)).2 = _
    rw [addRaw_254_createEncrypted]
  rw [hrun]
  have hflat : (getMeasurementByteArray S
      { BaseDevice.createEncrypted K sn cn t key mac c with
          _sensorData := [0x54 :: 254 :: raw254], _sensorDataIdx := 0 }).1.length = 31 := by
    show (flattenEntries (S.sort [0x54 :: 254 :: raw254])).length = 31
    rw [flatten_raw254_entry]
    simp [raw254_length]
  refine ⟨rfl, by simp [storedBytes, raw254_length], hflat, ?_, ?_⟩
  · rw [C.length_ciphertext]
    exact hflat
  · rw [payload_encrypted _ _ _ _ rfl]
    simp [getMeasurementByteArray, counterBytes]

theorem step_preserves_stored (K : Definitions) (C : Ccm) (S : StdSort) (op : Op)
    (d : BaseDevice) (hfit : op.fitsByte = true)
    (hb : d._sensorDataIdx + overhead d ≤ 23) (hs : storedBytes d = d._sensorDataIdx) :
    (op.step K C S d)._sensorDataIdx + overhead (op.step K C S d) ≤ 23 ∧
      storedBytes (op.step K C S d) = (op.step K C S d)._sensorDataIdx := by
  cases op with
  | add a =>
    exact ⟨add_preserves_bound a d hb,
      add_preserves_stored a d (by simpa [Op.fitsByte] using hfit) hb hs⟩
  | reset =>
    refine ⟨?_, rfl⟩
    show 0 + overhead d ≤ 23
    omega
  | advertise =>
    show (getAdvertisementData K C S d).2._sensorDataIdx
        + overhead (getAdvertisementData K C S d).2 ≤ 23 ∧
      storedBytes (getAdvertisementData K C S d).2
        = (getAdvertisementData K C S d).2._sensorDataIdx
    rw [(getAdvertisementData_sensorData K C S d).2, getAdvertisementData_overhead,
      getAdvertisementData_storedBytes]
    exact ⟨hb, hs⟩

/-- The bookkeeping invariant away from the defect of `addRaw`: in every state reached from
an empty buffer by add operations whose required sizes fit a byte, `resetMeasurement` and
`getAdvertisementData`, the consumed-byte counter is the number of bytes held in the entries
and the length `getMeasurementByteArray` returns, and with the encryption overhead it is at
most 23. -/
theorem runOps_stored_eq_counter (K : Definitions) (C : Ccm) (S : StdSort) (ops : List Op)
    (d : BaseDevice) (hfit : ∀ op ∈ ops, op.fitsByte = true) :
    storedBytes (runOps K C S ops (resetMeasurement d))
        = (runOps K C S ops (resetMeasurement d))._sensorDataIdx ∧
      (getMeasurementByteArray S (runOps K C S ops (resetMeasurement d))).1.length
        = (runOps K C S ops (resetMeasurement d))._sensorDataIdx ∧
      (runOps K C S ops (resetMeasurement d))._sensorDataIdx
        + overhead (runOps K C S ops (resetMeasurement d)) ≤ 23 := by
  have hgen : ∀ (ops : List Op) (e : BaseDevice), (∀ op ∈ ops, op.fitsByte = true) →
      e._sensorDataIdx + overhead e ≤ 23 → storedBytes e = e._sensorDataIdx →
      (runOps K C S ops e)._sensorDataIdx + overhead (runOps K C S ops e) ≤ 23 ∧
        storedBytes (runOps K C S ops e) = (runOps K C S ops e)._sensorDataIdx := by
    intro ops
    induction ops with
    | nil => exact fun e _ hb hs => ⟨hb, hs⟩
    | cons op ops ih =>
      intro e hf hb hs
      obtain ⟨hb2, hs2⟩ := step_preserves_stored K C S op e
        (hf op (List.mem_cons_self op ops)) hb hs
      exact ih (op.step K C S e) (fun o ho => hf o (List.mem_cons_of_mem op ho)) hb2 hs2
  have h0 : (resetMeasurement d)._sensorDataIdx + overhead (resetMeasurement d) ≤ 23 := by
    show 0 + overhead d ≤ 23
    unfold overhead ENCRYPTION_ADDITIONAL_BYTES
    split <;> omega
  obtain ⟨hb, hs⟩ := hgen ops (resetMeasurement d) hfit h0 rfl
  refine ⟨hs, ?_, hb⟩
  rw [← hs]
  exact (flattenEntries_sort_length S _ (by omega)).2

theorem roundHalfEven_error (x : ℚ) : |(roundHalfEven x : ℚ) - x| ≤ 1 / 2 := by
  have h1 : (⌊x⌋ : ℚ) ≤ x := Int.floor_le x
  have h2 : x < ⌊x⌋ + 1 := Int.lt_floor_add_one x
  unfold roundHalfEven
  split_ifs with ha hb hc
  · rw [abs_le]; constructor <;> linarith
  · push_cast; rw [abs_le]; constructor <;> linarith
  · rw [abs_le]; constructor <;> linarith
  · push_cast; rw [abs_le]; constructor <;> linarith

theorem roundHalfEven_intCast (m : ℤ) : roundHalfEven (m : ℚ) = m := by
  unfold roundHalfEven
  rw [Int.floor_intCast]
  simp

theorem toDouble_error (x : ℚ) : |toDouble x - x| ≤ 2 ^ (-53 : ℤ) * |x| := by
  unfold toDouble
  split_ifs with h0
  · simp [h0]
  · have hpos : 0 < |x| := abs_pos.mpr h0
    have hu : (0 : ℚ) < 2 ^ (Int.log 2 |x| - 52) := by positivity
    have hlog : ((2 : ℕ) : ℚ) ^ Int.log 2 |x| ≤ |x| := Int.zpow_log_le_self one_lt_two hpos
    have hr := roundHalfEven_error (x / 2 ^ (Int.log 2 |x| - 52))
    have heq : (roundHalfEven (x / 2 ^ (Int.log 2 |x| - 52)) : ℚ) * 2 ^ (Int.log 2 |x| - 52) - x
        = ((roundHalfEven (x / 2 ^ (Int.log 2 |x| - 52)) : ℚ) - x / 2 ^ (Int.log 2 |x| - 52))
          * 2 ^ (Int.log 2 |x| - 52) := by
      field_simp
    rw [heq, abs_mul, abs_of_pos hu]
    have hsplit : (2 : ℚ) ^ (Int.log 2 |x| - 52) = 2 ^ (Int.log 2 |x|) * 2 ^ (-52 : ℤ) := by
      rw [← zpow_add₀ (by norm_num : (2 : ℚ) ≠ 0)]
      congr 1
    have h2 : ((2 : ℕ) : ℚ) = 2 := by norm_num
    rw [h2] at hlog
    calc |(roundHalfEven (x / 2 ^ (Int.log 2 |x| - 52)) : ℚ) - x / 2 ^ (Int.log 2 |x| - 52)|
          * 2 ^ (Int.log 2 |x| - 52)
        ≤ 1 / 2 * 2 ^ (Int.log 2 |x| - 52) := mul_le_mul_of_nonneg_right hr hu.le
      _ = 2 ^ (-53 : ℤ) * 2 ^ (Int.log 2 |x|) := by
          rw [hsplit]
          norm_num
          ring
      _ ≤ 2 ^ (-53 : ℤ) * |x| := mul_le_mul_of_nonneg_left hlog (by positivity)

theorem truncate_error (q : ℚ) : |(truncate q : ℚ) - q| < 1 := by
  unfold truncate
  split_ifs with h
  · have h1 : (⌊q⌋ : ℚ) ≤ q := Int.floor_le q
    have h2 : q < ⌊q⌋ + 1 := Int.lt_floor_add_one q
    rw [abs_lt]; constructor <;> linarith
  · have h1 : q ≤ (⌈q⌉ : ℚ) := Int.le_ceil q
    have h2 : (⌈q⌉ : ℚ) < q + 1 := Int.ceil_lt_add_one q
    rw [abs_lt]; constructor <;> linarith

theorem scaledValue_error (v : ℤ) (s : ℚ) (hs : 0 < s) :
    |(scaledValue v s : ℚ) * s - v| < s + 2 ^ (-51 : ℤ) * |(v : ℚ)| := by
  have ht := truncate_error (scaleQuotient v s)
  have hq := toDouble_error (toDouble v / s)
  have hd := toDouble_error (v : ℚ)
  have hdabs : |toDouble (v : ℚ)| ≤ (1 + 2 ^ (-53 : ℤ)) * |(v : ℚ)| := by
    have := abs_sub_abs_le_abs_sub (toDouble (v : ℚ)) (v : ℚ)
    linarith
  have hq2 : |scaleQuotient v s * s - toDouble v| ≤ 2 ^ (-53 : ℤ) * |toDouble (v : ℚ)| := by
    have heq : scaleQuotient v s * s - toDouble v
        = (toDouble (toDouble v / s) - toDouble v / s) * s := by
      unfold scaleQuotient
      field_simp
    rw [heq, abs_mul, abs_of_pos hs]
    calc |toDouble (toDouble v / s) - toDouble v / s| * s
        ≤ 2 ^ (-53 : ℤ) * |toDouble (v : ℚ) / s| * s := mul_le_mul_of_nonneg_right hq hs.le
      _ = 2 ^ (-53 : ℤ) * |toDouble (v : ℚ)| := by
          rw [abs_div, abs_of_pos hs]
          field_simp
          ring
  have h1 : |(scaledValue v s : ℚ) * s - scaleQuotient v s * s| < s := by
    have : (scaledValue v s : ℚ) * s - scaleQuotient v s * s
        = ((truncate (scaleQuotient v s) : ℚ) - scaleQuotient v s) * s := by
      unfold scaledValue
      ring
    rw [this, abs_mul, abs_of_pos hs]
    calc |(truncate (scaleQuotient v s) : ℚ) - scaleQuotient v s| * s < 1 * s :=
          mul_lt_mul_of_pos_right ht hs
      _ = s := one_mul s
  have htri : |(scaledValue v s : ℚ) * s - v|
      ≤ |(scaledValue v s : ℚ) * s - scaleQuotient v s * s|
        + |scaleQuotient v s * s - toDouble v| + |toDouble (v : ℚ) - v| := by
    have e : (scaledValue v s : ℚ) * s - v
        = ((scaledValue v s : ℚ) * s - scaleQuotient v s * s)
          + (scaleQuotient v s * s - toDouble v) + (toDouble (v : ℚ) - v) := by ring
    rw [e]
    exact (abs_add _ _).trans (add_le_add_right (abs_add _ _) _)
  have hnn : 0 ≤ |(v : ℚ)| := abs_nonneg _
  have hc : (2 : ℚ) ^ (-53 : ℤ) * ((1 + 2 ^ (-53 : ℤ)) * |(v : ℚ)|) + 2 ^ (-53 : ℤ) * |(v : ℚ)|
      ≤ 2 ^ (-51 : ℤ) * |(v : ℚ)| := by
    have : (2 : ℚ) ^ (-53 : ℤ) * (1 + 2 ^ (-53 : ℤ)) + 2 ^ (-53 : ℤ) ≤ 2 ^ (-51 : ℤ) := by
      norm_num
    nlinarith
  have hq3 : |scaleQuotient v s * s - toDouble v|
      ≤ 2 ^ (-53 : ℤ) * ((1 + 2 ^ (-53 : ℤ)) * |(v : ℚ)|) :=
    hq2.trans (mul_le_mul_of_nonneg_left hdabs (by positivity))
  linarith

theorem intLog_eq (x : ℚ) (k : ℤ) (h1 : (2 : ℚ) ^ k ≤ x) (h2 : x < 2 ^ (k + 1)) :
    Int.log 2 x = k := by
  have hpos : 0 < x := lt_of_lt_of_le (by positivity) h1
  have hc : ((2 : ℕ) : ℚ) = 2 := by norm_num
  apply le_antisymm
  · have := (Int.lt_zpow_iff_log_lt (R := ℚ) one_lt_two hpos (x := k + 1)).mp (by rw [hc]; exact h2)
    omega
  · exact (Int.zpow_le_iff_le_log (R := ℚ) one_lt_two hpos).mp (by rw [hc]; exact h1)

/-- A rational that is an integer multiple of the unit in the last place of its binade is a
double, and the conversion returns it unchanged. -/
theorem toDouble_exact (x : ℚ) (k m : ℤ) (h1 : (2 : ℚ) ^ k ≤ |x|) (h2 : |x| < 2 ^ (k + 1))
    (hm : x = m * 2 ^ (k - 52)) : toDouble x = x := by
  unfold toDouble
  split_ifs with h0
  · exact h0.symm
  · rw [intLog_eq |x| k h1 h2]
    have hu : (2 : ℚ) ^ (k - 52) ≠ 0 := by positivity
    have hdiv : x / 2 ^ (k - 52) = (m : ℚ) := by
      rw [hm]
      field_simp
    rw [hdiv, roundHalfEven_intCast]
    exact hm.symm

theorem toDouble_seven : toDouble ((7 : ℤ) : ℚ) = 7 := by
  have := toDouble_exact 7 2 (7 * 2 ^ 50) (by norm_num) (by norm_num) (by norm_num)
  simpa using this

theorem toDouble_seven_quarters : toDouble (7 / 4) = 7 / 4 :=
  toDouble_exact (7 / 4) 0 (7 * 2 ^ 50)
    (by rw [abs_of_pos (by norm_num)]; norm_num)
    (by rw [abs_of_pos (by norm_num)]; norm_num) (by norm_num)

theorem scaledValue_seven_four : scaledValue 7 4 = 1 := by
  unfold scaledValue scaleQuotient
  rw [toDouble_seven, toDouble_seven_quarters]
  unfold truncate
  rw [if_pos (by norm_num)]
  rw [Int.floor_eq_iff]
  norm_num


theorem truncate_abs_le (q : ℚ) : |(truncate q : ℚ)| ≤ |q| := by
  unfold truncate
  split_ifs with h
  · have h1 : (⌊q⌋ : ℚ) ≤ q := Int.floor_le q
    have h0 : (0 : ℚ) ≤ ⌊q⌋ := by exact_mod_cast Int.floor_nonneg.mpr h
    rw [abs_of_nonneg h0, abs_of_nonneg h]
    exact h1
  · have hq : q < 0 := lt_of_not_le h
    have h1 : q ≤ (⌈q⌉ : ℚ) := Int.le_ceil q
    have h0 : (⌈q⌉ : ℚ) ≤ 0 := by exact_mod_cast Int.ceil_le.mpr (by exact_mod_cast hq.le)
    rw [abs_of_nonpos h0, abs_of_neg hq]
    linarith

theorem roundHalfEven_near (y : ℚ) (m : ℤ) (h : |y - m| < 1 / 2) : roundHalfEven y = m := by
  rw [abs_lt] at h
  unfold roundHalfEven
  by_cases hge : (m : ℚ) ≤ y
  · have hf : ⌊y⌋ = m := Int.floor_eq_iff.mpr ⟨hge, by linarith⟩
    rw [hf, if_pos (by linarith)]
  · have hf : ⌊y⌋ = m - 1 := Int.floor_eq_iff.mpr ⟨by push_cast; linarith, by push_cast; linarith⟩
    rw [hf, if_neg (by push_cast; linarith), if_pos (by push_cast; linarith)]
    ring

/-- The conversion evaluated: with `2 ^ k <= |x| < 2 ^ (k + 1)`, the `double` nearest to `x`
is `m * 2 ^ (k - 52)` for the integer `m` that is less than half a unit away from
`x / 2 ^ (k - 52)`. -/
theorem toDouble_near (x : ℚ) (k m : ℤ) (h1 : (2 : ℚ) ^ k ≤ |x|) (h2 : |x| < 2 ^ (k + 1))
    (hm : |x / 2 ^ (k - 52) - m| < 1 / 2) : toDouble x = m * 2 ^ (k - 52) := by
  unfold toDouble
  have h0 : x ≠ 0 := by
    intro h
    rw [h, abs_zero] at h1
    exact absurd h1 (not_le.mpr (by positivity))
  rw [if_neg h0, intLog_eq |x| k h1 h2, roundHalfEven_near _ m hm]

theorem toDouble_twentyfive : toDouble ((25 : ℤ) : ℚ) = 25 := by
  have := toDouble_exact 25 4 (25 * 2 ^ 48) (by norm_num) (by norm_num) (by norm_num)
  simpa using this

theorem scaledValue_twentyfive_tenth : scaledValue 25 scaleOneTenth = 249 := by
  unfold scaledValue scaleQuotient scaleOneTenth
  rw [toDouble_twentyfive]
  have hq : toDouble (25 / (13421773 / 134217728))
      = (8796092891136002 : ℤ) * 2 ^ ((7 : ℤ) - 52) :=
    toDouble_near _ 7 8796092891136002
      (by rw [abs_of_pos (by norm_num)]; norm_num)
      (by rw [abs_of_pos (by norm_num)]; norm_num)
      (by rw [abs_lt]; constructor <;> norm_num)
  rw [hq]
  unfold truncate
  rw [if_pos (by norm_num), Int.floor_eq_iff]
  constructor <;> norm_num

/-- C17 (counterexample): `addUnsignedInteger` with the value 7 and the scale 4 packs
`e = 1`: 7.0 / 4.0 is exactly 1.75 and the conversion to the integer type discards the
fraction; `|1 * 4 - 7| = 3` is more than half a scale step. With the value 25 and the scale
`0.1f` the quotient is 249.999996... and `e = 249`, one whole step below 25. -/
theorem scaling_truncates :
    scaledValue 7 4 = 1 ∧
      ¬ (|((scaledValue 7 4 : ℤ) : ℚ) * 4 - 7| ≤ 1 / 2 * 4) ∧
      scaledValue 25 scaleOneTenth = 249 ∧
      ¬ (|((scaledValue 25 scaleOneTenth : ℤ) : ℚ) * scaleOneTenth - 25|
          ≤ 1 / 2 * scaleOneTenth) := by
  refine ⟨scaledValue_seven_four, ?_, scaledValue_twentyfive_tenth, ?_⟩
  · rw [scaledValue_seven_four]
    norm_num
  · rw [scaledValue_twentyfive_tenth]
    unfold scaleOneTenth
    rw [not_le, lt_abs]
    right
    norm_num

theorem inTypeRange_abs (isSigned : Bool) (x : ℤ) (h : inTypeRange isSigned x) :
    |(x : ℚ)| ≤ 2 ^ 64 := by
  unfold inTypeRange at h
  have hx : -(2 : ℤ) ^ 64 ≤ x ∧ x ≤ 2 ^ 64 := by
    split_ifs at h <;> constructor <;> omega
  rw [abs_le]
  constructor
  · exact_mod_cast hx.1
  · exact_mod_cast hx.2

/-- For a 64-bit value and a positive finite `float` scale the quotient lies in the normal
range of `double`: below `2 ^ 1024`, and at least `2 ^ (-1022)` unless the value is 0. -/
theorem quotient_in_normal_range (isSigned : Bool) (v : ℤ) (s : ℚ)
    (hv : inTypeRange isSigned v) (hslo : 2 ^ (-149 : ℤ) ≤ s) (hshi : s < 2 ^ 128) :
    |toDouble v / s| < 2 ^ 1024 ∧ (v = 0 ∨ 2 ^ (-1022 : ℤ) ≤ |toDouble v / s|) := by
  have hs : 0 < s := lt_of_lt_of_le (by positivity) hslo
  have hd := toDouble_error (v : ℚ)
  have habs := inTypeRange_abs isSigned v hv
  have hup : |toDouble (v : ℚ)| ≤ (1 + 2 ^ (-53 : ℤ)) * |(v : ℚ)| := by
    have := abs_sub_abs_le_abs_sub (toDouble (v : ℚ)) (v : ℚ)
    linarith
  have hlow : (1 - 2 ^ (-53 : ℤ)) * |(v : ℚ)| ≤ |toDouble (v : ℚ)| := by
    have := abs_sub_abs_le_abs_sub (v : ℚ) (toDouble (v : ℚ))
    rw [abs_sub_comm] at this
    linarith
  rw [abs_div, abs_of_pos hs]
  constructor
  · rw [div_lt_iff₀ hs]
    have h1 : |toDouble (v : ℚ)| ≤ 2 ^ 65 := by
      have : (1 + (2 : ℚ) ^ (-53 : ℤ)) * |(v : ℚ)| ≤ 2 * 2 ^ 64 :=
        mul_le_mul (by norm_num) habs (abs_nonneg _) (by norm_num)
      linarith
    have h2 : (2 : ℚ) ^ 65 < 2 ^ 1024 * 2 ^ (-149 : ℤ) := by norm_num
    have h3 : (2 : ℚ) ^ 1024 * 2 ^ (-149 : ℤ) ≤ 2 ^ 1024 * s :=
      mul_le_mul_of_nonneg_left hslo (by positivity)
    linarith
  · by_cases h0 : v = 0
    · exact Or.inl h0
    · right
      have hv1 : (1 : ℚ) ≤ |(v : ℚ)| := by
        have : (1 : ℤ) ≤ |v| := Int.one_le_abs h0
        exact_mod_cast this
      have h1 : (1 / 2 : ℚ) ≤ |toDouble (v : ℚ)| := by
        have h4 : (1 - (2 : ℚ) ^ (-53 : ℤ)) * 1 ≤ (1 - 2 ^ (-53 : ℤ)) * |(v : ℚ)| :=
          mul_le_mul_of_nonneg_left hv1 (by norm_num)
        have h5 : (1 / 2 : ℚ) ≤ (1 - (2 : ℚ) ^ (-53 : ℤ)) * 1 := by norm_num
        exact h5.trans (h4.trans hlow)
      rw [le_div_iff₀ hs]
      have h2 : (2 : ℚ) ^ (-1022 : ℤ) * s ≤ 2 ^ (-1022 : ℤ) * 2 ^ 128 :=
        mul_le_mul_of_nonneg_left hshi.le (by positivity)
      have h3 : (2 : ℚ) ^ (-1022 : ℤ) * 2 ^ 128 ≤ 1 / 2 := by norm_num
      exact h2.trans (h3.trans h1)

theorem inTypeRange_pattern (isSigned : Bool) (e : ℤ) (h : inTypeRange isSigned e) :
    (if isSigned then (e % 2 ^ 64).toNat % 2 ^ 64 else e.toNat % 2 ^ 64)
      = (e % 2 ^ 64).toNat := by
  unfold inTypeRange at h
  split_ifs at h ⊢
  · omega
  · omega

/-- C17 (as amended): round-trip scaling. For a value `v` of the integer type (`uint64_t` for
`addUnsignedInteger`, `int64_t` for `addSignedInteger`), a descriptor whose scale `s` is a
positive finite `float` and whose width `w` is at most 8, and a quotient whose integer part
is a value of the integer type: the integer `e` that is packed is the `double` quotient
(which lies in the normal range of `double`) with its fraction discarded, not rounded to the
nearest integer. It satisfies `|e * s - v| < s + 2 ^ (-51) * |v|`: decoding recovers the
value to within less than one scale step, up to the rounding of the `double` arithmetic. In
every state the call returns `true` exactly when `hasEnoughSpace` grants `w + 1` bytes, and
the entry it then appends is the sensor id followed by `e` wrapped at the `w`-byte boundary:
the value bytes are the little-endian digits of `e mod 2 ^ (8 * w)`. -/
theorem scaling_within_one_step (isSigned : Bool) (sensor : BtHomeType) (v : ℤ)
    (hv : inTypeRange isSigned v)
    (hslo : 2 ^ (-149 : ℤ) ≤ sensor.scale) (hshi : sensor.scale < 2 ^ 128)
    (he : inTypeRange isSigned (scaledValue v sensor.scale))
    (hw8 : sensor.byteCount ≤ 8) :
    |((scaledValue v sensor.scale : ℤ) : ℚ) * sensor.scale - v|
        < sensor.scale + 2 ^ (-51 : ℤ) * |(v : ℚ)| ∧
      |((scaledValue v sensor.scale : ℤ) : ℚ) - scaleQuotient v sensor.scale| < 1 ∧
      |((scaledValue v sensor.scale : ℤ) : ℚ)| ≤ |scaleQuotient v sensor.scale| ∧
      (|toDouble v / sensor.scale| < 2 ^ 1024 ∧
        (v = 0 ∨ 2 ^ (-1022 : ℤ) ≤ |toDouble v / sensor.scale|)) ∧
      (∀ d : BaseDevice,
        (if isSigned then addSignedIntegerValue sensor v d
          else addUnsignedIntegerValue sensor v.toNat d)
        = if hasEnoughSpace (sensor.byteCount + TYPE_INDICATOR_SIZE) d then
            (true,
              { d with
                _sensorData := d._sensorData ++
                  [sensor.id ::
                    valueBytes ((scaledValue v sensor.scale % 2 ^ 64).toNat) sensor.byteCount]
                _sensorDataIdx :=
                  (d._sensorDataIdx + (sensor.byteCount + TYPE_INDICATOR_SIZE)) % 256 })
          else (false, d)) ∧
      decodeLE (valueBytes ((scaledValue v sensor.scale % 2 ^ 64).toNat) sensor.byteCount)
        = (scaledValue v sensor.scale % 2 ^ (8 * sensor.byteCount)).toNat := by
  have hs : 0 < sensor.scale := lt_of_lt_of_le (by positivity) hslo
  have hpat := inTypeRange_pattern isSigned _ he
  refine ⟨scaledValue_error v _ hs, truncate_error _, truncate_abs_le _,
    quotient_in_normal_range isSigned v _ hv hslo hshi, ?_, ?_⟩
  · intro d
    cases isSigned
    · simp only [Bool.false_eq_true, if_false] at hpat ⊢
      have hv0 : ((v.toNat : ℕ) : ℤ) = v := Int.toNat_of_nonneg (by simpa [inTypeRange] using hv.1)
      have h := AddOp.apply_eq
        (AddOp.unsignedInteger sensor.state (scaledValue v sensor.scale).toNat) d
      unfold addUnsignedIntegerValue
      rw [hv0, ← hpat]
      exact h
    · simp only [if_true] at hpat ⊢
      have h := AddOp.apply_eq
        (AddOp.signedInteger sensor.state (scaledValue v sensor.scale)) d
      unfold addSignedIntegerValue
      rw [← hpat]
      exact h
  · rw [decodeLE_valueBytes]
    have h := twos_complement_low_bytes (scaledValue v sensor.scale) sensor.byteCount hw8
    have hlt : (scaledValue v sensor.scale % 2 ^ 64).toNat < 2 ^ 64 := by omega
    rw [Nat.mod_eq_of_lt hlt] at h
    exact h

/-- C17 (witness): `addUnsignedInteger` with the value 7 and a descriptor of scale 4 and
width 1. -/
theorem scaling_within_one_step_witness :
    inTypeRange false 7 ∧ inTypeRange false (scaledValue 7 4) ∧
      |((scaledValue 7 4 : ℤ) : ℚ) * 4 - (7 : ℤ)| < 4 + 2 ^ (-51 : ℤ) * |((7 : ℤ) : ℚ)| :=
  ⟨by simp [inTypeRange], by rw [scaledValue_seven_four]; simp [inTypeRange],
    (scaling_within_one_step false ⟨0x02, 1, 4⟩ 7 (by simp [inTypeRange]) (by norm_num)
      (by norm_num) (by rw [scaledValue_seven_four]; simp [inTypeRange]) (by decide)).1⟩

theorem reading_create (K : Definitions) (sn cn : List Nat) (t : Bool) :
    (AddOp.signedInteger ⟨0x57, 1⟩ 25).apply (BaseDevice.create K sn cn t) =
      (true, { BaseDevice.create K sn cn t with
                _sensorData := [[0x57, 25]], _sensorDataIdx := 2 }) := by
  rfl

theorem reading_advertise (K : Definitions) (C : Ccm) (S : StdSort) (sn cn : List Nat)
    (t : Bool) :
    (getAdvertisementData K C S
        { BaseDevice.create K sn cn t with
            _sensorData := [[0x57, 25]], _sensorDataIdx := 2 }).2
      = { BaseDevice.create K sn cn t with
            _sensorData := [[0x57, 25]], _sensorDataIdx := 2 } := by
  show { BaseDevice.create K sn cn t with
      _sensorData := S.sort [[0x57, 25]], _sensorDataIdx := 2 } = _
  rw [S.sort_singleton]

theorem raw254_after_reading (K : Definitions) (sn cn : List Nat) (t : Bool) :
    (AddOp.raw 0x54 raw254 254).apply
        { BaseDevice.create K sn cn t with
            _sensorData := [[0x57, 25]], _sensorDataIdx := 2 }
      = (true, { BaseDevice.create K sn cn t with
                  _sensorData := [[0x57, 25], 0x54 :: 254 :: raw254],
                  _sensorDataIdx := 2 }) := by
  have hsp : hasEnoughSpace (254 % 256 + RAW_HEADER_BYTE_SIZE)
      { BaseDevice.create K sn cn t with
          _sensorData := [[0x57, 25]], _sensorDataIdx := 2 } = true := by
    rw [hasEnoughSpace_iff _ _ (by simp)]
    simp [overhead, BaseDevice.create, resetMeasurement, RAW_HEADER_BYTE_SIZE]
  show addRaw 0x54 raw254 254 _ = _
  unfold addRaw
  rw [hsp, raw254_read]
  simp [BaseDevice.create, resetMeasurement, RAW_HEADER_BYTE_SIZE]

theorem sort_reading_raw254 (S : StdSort) :
    S.sort [[0x57, 25], 0x54 :: 254 :: raw254] = [0x54 :: 254 :: raw254, [0x57, 25]] := by
  apply sorted_perm_unique
  · exact (S.perm _).trans (List.Perm.swap _ _ _)
  · exact S.heads_sorted _
  · simp
  · have hp := (S.perm [[0x57, 25], 0x54 :: 254 :: raw254]).map leadingId
    refine hp.nodup_iff.mpr ?_
    simp [leadingId]

theorem raw254_take_no_reading : 0x57 ∉ (0x54 :: 254 :: raw254).take 31 := by
  intro h
  have hsub := List.mem_of_mem_take h
  simp only [raw254, List.mem_cons, List.mem_replicate] at hsub
  omega

/-- C19 (evaluation at the failing input): on a fresh unencrypted device a reading with id
`0x57` is accepted and the frame written next carries its entry `57 19` after the 8 header
bytes. A call of `addRaw` with id `0x54` and length 254 is then accepted as well, with no
`resetMeasurement` in between, and the entry of the reading is still in the buffer; but the
frame written after that consists of the header bytes and the first 31 bytes of the raw
entry, so the reading added before the first frame is not in the later frame. -/
theorem earlier_entry_missing_from_later_frame (K : Definitions) (C : Ccm) (S : StdSort)
    (sn cn : List Nat) (t : Bool) :
    ((AddOp.signedInteger ⟨0x57, 1⟩ 25).apply (BaseDevice.create K sn cn t)).1 = true ∧
      ((AddOp.raw 0x54 raw254 254).apply
        (runOps K C S (readingThenRaw254.take 2) (BaseDevice.create K sn cn t))).1 = true ∧
      (∃ names,
        (trace K C S readingThenRaw254 (BaseDevice.create K sn cn t)).map (fun x => x.2.1)
          = [[K.FLAG1, K.FLAG2, K.FLAG3, 6, K.SERVICE_DATA, K.UUID1, K.UUID2,
                indicatorByte K (BaseDevice.create K sn cn t)] ++ [0x57, 25] ++ names,
             [K.FLAG1, K.FLAG2, K.FLAG3, 35, K.SERVICE_DATA, K.UUID1, K.UUID2,
                indicatorByte K (BaseDevice.create K sn cn t)]
               ++ (0x54 :: 254 :: raw254).take 31]) ∧
      [0x57, 25] ∈ (runOps K C S readingThenRaw254 (BaseDevice.create K sn cn t))._sensorData ∧
      0x57 ∉ (0x54 :: 254 :: raw254).take 31 := by
  have hstep2 : runOps K C S (readingThenRaw254.take 2) (BaseDevice.create K sn cn t)
      = { BaseDevice.create K sn cn t with
            _sensorData := [[0x57, 25]], _sensorDataIdx := 2 } := by
    show (getAdvertisementData K C S
      ((AddOp.signedInteger ⟨0x57, 1⟩ 25).apply (BaseDevice.create K sn cn t)).2).2 = _
    rw [reading_create]
    exact reading_advertise K C S sn cn t
  have hframe1 : ∃ names,
      (getAdvertisementData K C S
          { BaseDevice.create K sn cn t with
              _sensorData := [[0x57, 25]], _sensorDataIdx := 2 }).1
        = [K.FLAG1, K.FLAG2, K.FLAG3, 6, K.SERVICE_DATA, K.UUID1, K.UUID2,
            indicatorByte K (BaseDevice.create K sn cn t)] ++ [0x57, 25] ++ names := by
    obtain ⟨names, h, _⟩ := unencrypted_frame_layout K C S
      { BaseDevice.create K sn cn t with _sensorData := [[0x57, 25]], _sensorDataIdx := 2 }
      rfl (by simp [storedBytes])
    refine ⟨names, ?_⟩
    rw [h]
    simp only []
    rw [S.sort_singleton]
    rfl
  have hframe2 :
      (getAdvertisementData K C S
          { BaseDevice.create K sn cn t with
              _sensorData := [[0x57, 25], 0x54 :: 254 :: raw254], _sensorDataIdx := 2 }).1
        = [K.FLAG1, K.FLAG2, K.FLAG3, 35, K.SERVICE_DATA, K.UUID1, K.UUID2,
            indicatorByte K (BaseDevice.create K sn cn t)]
          ++ (0x54 :: 254 :: raw254).take 31 := by
    have hflat : flattenEntries (S.sort [[0x57, 25], 0x54 :: 254 :: raw254])
        = (0x54 :: 254 :: raw254).take 31 := by
      rw [sort_reading_raw254, flattenEntries_eq, List.flatten_cons,
        List.take_append_of_le_length (by simp [raw254_length, MAX_ADVERTISEMENT_SIZE])]
      rfl
    rw [getAdvertisementData_frame]
    simp only []
    rw [payload_unencrypted _ _ _ _ rfl, hflat]
    rw [appendShortName_eq_self, appendCompleteName_eq_self]
    · simp [raw254_length]
      rfl
    · simp [raw254_length]
    · rw [appendCompleteName_eq_self] <;> simp [raw254_length]
  have hfinal : runOps K C S readingThenRaw254 (BaseDevice.create K sn cn t)
      = { BaseDevice.create K sn cn t with
            _sensorData := S.sort [[0x57, 25], 0x54 :: 254 :: raw254],
            _sensorDataIdx := 2 } := by
    simp only [readingThenRaw254, runOps, List.foldl, Op.step]
    rw [reading_create, reading_advertise, raw254_after_reading]
    rfl
  obtain ⟨names, hn⟩ := hframe1
  refine ⟨by rw [reading_create], by rw [hstep2, raw254_after_reading], ⟨names, ?_⟩, ?_,
    raw254_take_no_reading⟩
  · simp only [readingThenRaw254, trace, List.map]
    rw [reading_create, reading_advertise, raw254_after_reading, hn, hframe2]
  · have hmem : [0x57, 25] ∈ S.sort [[0x57, 25], 0x54 :: 254 :: raw254] :=
      (S.perm _).mem_iff.mpr (List.mem_cons_self _ _)
    exact hfinal ▸ hmem

theorem step_useEncryption (K : Definitions) (C : Ccm) (S : StdSort) (op : Op)
    (d : BaseDevice) : (op.step K C S d)._useEncryption = d._useEncryption := by
  cases op with
  | add a => exact add_preserves_useEncryption a d
  | reset => rfl
  | advertise => exact getAdvertisementData_useEncryption K C S d

/-- Persistence away from the defect of `addRaw`: from a state without encryption whose
counter is the number of stored bytes, through any sequence of calls without
`resetMeasurement` in which every add operation has a required size that fits a byte, every
frame written is the 8 header bytes, the concatenation of the sorted entries of the buffer at
that call, and the name fields; and every entry that was in the buffer at the start is among
the sorted entries of every one of these frames. -/
theorem entries_remain_in_every_later_frame (K : Definitions) (C : Ccm) (S : StdSort)
    (ops : List Op) (d : BaseDevice) (henc : d._useEncryption = false)
    (hfit : ∀ op ∈ ops, op.fitsByte = true) (hnoreset : Op.reset ∉ ops)
    (hb : d._sensorDataIdx + overhead d ≤ 23) (hs : storedBytes d = d._sensorDataIdx) :
    ∀ x ∈ trace K C S ops d,
      (∃ names,
        x.2.1 = [K.FLAG1, K.FLAG2, K.FLAG3, 4 + storedBytes x.1, K.SERVICE_DATA, K.UUID1,
            K.UUID2, indicatorByte K x.1] ++ (S.sort x.1._sensorData).flatten ++ names) ∧
      ∀ e ∈ d._sensorData, e ∈ S.sort x.1._sensorData := by
  induction ops generalizing d with
  | nil => intro x hx; simp [trace] at hx
  | cons op ops ih =>
    have hfit2 : ∀ o ∈ ops, o.fitsByte = true := fun o ho => hfit o (List.mem_cons_of_mem op ho)
    have hno2 : Op.reset ∉ ops := fun h => hnoreset (List.mem_cons_of_mem op h)
    obtain ⟨hb2, hs2⟩ := step_preserves_stored K C S op d
      (hfit op (List.mem_cons_self op ops)) hb hs
    have henc2 : (op.step K C S d)._useEncryption = false :=
      (step_useEncryption K C S op d).trans henc
    cases op with
    | add a =>
      intro x hx
      obtain ⟨h1, h2⟩ := ih (a.apply d).2 henc2 hfit2 hno2 hb2 hs2 x hx
      refine ⟨h1, fun e he => h2 e ?_⟩
      rw [add_sensorData]
      split
      · exact List.mem_append_left _ he
      · exact he
    | reset => exact absurd (List.mem_cons_self _ _) hnoreset
    | advertise =>
      intro x hx
      rcases List.mem_cons.mp hx with rfl | hx
      · obtain ⟨names, hfr, _⟩ := unencrypted_frame_layout K C S d henc (by omega)
        exact ⟨⟨names, hfr⟩, fun e he => (S.perm _).mem_iff.mpr he⟩
      · obtain ⟨h1, h2⟩ := ih (getAdvertisementData K C S d).2 henc2 hfit2 hno2 hb2 hs2 x hx
        refine ⟨h1, fun e he => h2 e ?_⟩
        rw [(getAdvertisementData_sensorData K C S d).1]
        exact (S.perm _).mem_iff.mpr he

/-- When `std::sort` is an insertion sort, a device without encryption writes the same frame
again when `getAdvertisementData` is called twice in a row, in every state: the first call
leaves the entries sorted, and the second sort does not move them. -/
theorem insertion_sort_frames_repeat (K : Definitions) (C : Ccm) (d : BaseDevice)
    (henc : d._useEncryption = false) :
    (getAdvertisementData K C insertionStdSort
        (getAdvertisementData K C insertionStdSort d).2).1
      = (getAdvertisementData K C insertionStdSort d).1 := by
  apply unencrypted_frame_congr
  · rw [getAdvertisementData_useEncryption]
    exact henc
  · exact resetMeasurement_advertise K C insertionStdSort d henc
  · rw [(getAdvertisementData_sensorData K C insertionStdSort d).1]
    exact List.Sorted.insertionSort_eq (List.sorted_insertionSort entryLe d._sensorData)

end BTHome
